import Mathlib

/-!
Verification of the IPR-service watermarking core.

This file gives a shallow embedding, in Lean 4, of the algorithmic core of the
ipr-service repository — the keyed RNG construction, the Arnold scramble and
its inverse, the deterministic value transform, the visible raster compositing
step, and the vector fictitious-entry and geometry embedders/detectors — and
proves or refutes the specification claims about them.

Machine integers are modelled as `Nat` with explicit masking (`&&& 0xFFFFFFFF`
and friends) exactly where the source's `uint32`/`uint64` arithmetic wraps.
The numpy `RandomState` generator used by the source (MT19937 with the legacy
`init_genrand`/`init_by_array` seeding and the masked-rejection `randint`) is
embedded faithfully; the unbounded rejection loop of `randint` is given
explicit fuel and returns `Option`, so every theorem about a drawn value is
conditioned on the loop accepting within the fuel — witnessed concretely.
-/

set_option maxRecDepth 10000

namespace Ipr

/-! ## MT19937 (numpy legacy RandomState bit generator) -/

/-- Mask for 32-bit words. -/
def mask32 : Nat := 0xFFFFFFFF

/-- State of the MT19937 generator: the 624 32-bit key words and the read position. -/
structure MTState where
  key : List Nat
  pos : Nat
deriving Repr, DecidableEq

/-- Builder loop for `initGenrand`: from word `prev` at index `i-1`, produce the
remaining words `mt[i] = (1812433253 * (mt[i-1] xor (mt[i-1] >> 30)) + i) mod 2^32`. -/
def initGenrandGo (prev i : Nat) : Nat → List Nat → List Nat
  | 0, acc => acc.reverse
  | fuel+1, acc =>
    let w := (1812433253 * (prev ^^^ (prev >>> 30)) + i) &&& mask32
    initGenrandGo w (i+1) fuel (w :: acc)

/-- `init_genrand` seeding of MT19937 (numpy legacy path for seeds below 2^32). -/
def initGenrand (s : Nat) : List Nat :=
  let m0 := s &&& mask32
  initGenrandGo m0 1 623 [m0]

/-- One assignment of the sequential MT19937 twist:
`y = (mt[i] & 0x80000000) | (mt[(i+1) mod 624] & 0x7fffffff)` and
`mt[i] = mt[(i+397) mod 624] xor (y >> 1) xor (y&1 ? 0x9908b0df : 0)`,
reading the partially updated array exactly as the C loop does. -/
def twistStep (key : List Nat) (i : Nat) : List Nat :=
  let y := (key.getD i 0 &&& 0x80000000) ||| (key.getD ((i+1) % 624) 0 &&& 0x7FFFFFFF)
  key.set i ((key.getD ((i+397) % 624) 0) ^^^ (y >>> 1) ^^^ (if y &&& 1 == 1 then 0x9908B0DF else 0))

/-- The full MT19937 state twist (`mt19937_gen`). -/
def twist (key : List Nat) : List Nat := (List.range 624).foldl twistStep key

/-- MT19937 output tempering. -/
def temper (y : Nat) : Nat :=
  let y1 := y ^^^ (y >>> 11)
  let y2 := y1 ^^^ ((y1 <<< 7) &&& 0x9D2C5680)
  let y3 := y2 ^^^ ((y2 <<< 15) &&& 0xEFC60000)
  y3 ^^^ (y3 >>> 18)

/-- Draw one 32-bit word (`mt19937_next`): twist when the position is exhausted,
then temper the word at the current position. -/
def next32 (st : MTState) : Nat × MTState :=
  let st' := if st.pos ≥ 624 then MTState.mk (twist st.key) 0 else st
  (temper (st'.key.getD st'.pos 0), MTState.mk st'.key (st'.pos + 1))

/-- Draw one 64-bit word (`mt19937_next64`): high 32 bits first. -/
def next64 (st : MTState) : Nat × MTState :=
  let p := next32 st
  let q := next32 p.2
  ((p.1 <<< 32) ||| q.1, q.2)

/-- First pass of `init_by_array`: mixes the seed key words into the state. -/
def initByArrayGo1 (keyArr : List Nat) (mt : List Nat) (i j : Nat) : Nat → List Nat
  | 0 => mt
  | fuel+1 =>
    let prev := mt.getD (i-1) 0
    let v := ((mt.getD i 0 ^^^ (((prev ^^^ (prev >>> 30)) * 1664525) &&& mask32)) + keyArr.getD j 0 + j) &&& mask32
    let mt1 := mt.set i v
    let i1 := i + 1
    let j1 := j + 1
    let mt2 := if i1 ≥ 624 then mt1.set 0 (mt1.getD 623 0) else mt1
    let i2 := if i1 ≥ 624 then 1 else i1
    let j2 := if j1 ≥ keyArr.length then 0 else j1
    initByArrayGo1 keyArr mt2 i2 j2 fuel

/-- Second pass of `init_by_array` (the `- i` is the wrapping uint32 subtraction). -/
def initByArrayGo2 (mt : List Nat) (i : Nat) : Nat → List Nat
  | 0 => mt
  | fuel+1 =>
    let prev := mt.getD (i-1) 0
    let a := mt.getD i 0 ^^^ (((prev ^^^ (prev >>> 30)) * 1566083941) &&& mask32)
    let v := (a + 0x100000000 - (i &&& mask32)) &&& mask32
    let mt1 := mt.set i v
    let i1 := i + 1
    let mt2 := if i1 ≥ 624 then mt1.set 0 (mt1.getD 623 0) else mt1
    let i2 := if i1 ≥ 624 then 1 else i1
    initByArrayGo2 mt2 i2 fuel

/-- `init_by_array` seeding of MT19937 (numpy legacy path for seeds of 2^32 and above). -/
def initByArray (keyArr : List Nat) : List Nat :=
  let mt := initGenrand 19650218
  let mt1 := initByArrayGo1 keyArr mt 1 0 (max 624 keyArr.length)
  let mt2 := initByArrayGo2 mt1 1 623
  mt2.set 0 0x80000000

/-- Little-endian 32-bit word loop; the fuel only bounds the recursion depth
(structurally), the loop stops when the value reaches zero. -/
def leWordsGo : Nat → Nat → List Nat
  | 0, _ => []
  | fuel+1, v => if v = 0 then [] else (v &&& mask32) :: leWordsGo fuel (v >>> 32)

/-- Little-endian 32-bit word decomposition of a natural number (the value
itself always dominates the number of its 32-bit words, so it serves as fuel). -/
def leWords (v : Nat) : List Nat := leWordsGo v v

/-- Seed words as numpy coerces a python int (zero becomes the single word 0). -/
def seedWords (v : Nat) : List Nat := if v = 0 then [0] else leWords v

/-- `RandomState(seed=n)` legacy seeding: `init_genrand` for seeds below 2^32,
otherwise `init_by_array` on the little-endian word decomposition. -/
def legacySeed (seed : Nat) : MTState :=
  if seed ≤ mask32 then MTState.mk (initGenrand seed) 624
  else MTState.mk (initByArray (seedWords seed)) 624

/-! ## randint (numpy legacy bounded draw, masked rejection) -/

/-- `gen_mask`: smallest mask of the form 2^k - 1 covering `rng`. -/
def genMask (rng : Nat) : Nat :=
  let m := rng ||| (rng >>> 1)
  let m := m ||| (m >>> 2)
  let m := m ||| (m >>> 4)
  let m := m ||| (m >>> 8)
  let m := m ||| (m >>> 16)
  m ||| (m >>> 32)

/-- Masked-rejection loop over 32-bit draws (`buffered_bounded_masked_uint32`),
with explicit fuel standing in for the source's unbounded loop. -/
def boundedMasked32 (rng mask : Nat) : Nat → MTState → Option (Nat × MTState)
  | 0, _ => none
  | fuel+1, st =>
    let p := next32 st
    let val := p.1 &&& mask
    if val ≤ rng then some (val, p.2) else boundedMasked32 rng mask fuel p.2

/-- Masked-rejection loop over 64-bit draws (`bounded_masked_uint64`). -/
def boundedMasked64 (rng mask : Nat) : Nat → MTState → Option (Nat × MTState)
  | 0, _ => none
  | fuel+1, st =>
    let p := next64 st
    let val := p.1 &&& mask
    if val ≤ rng then some (val, p.2) else boundedMasked64 rng mask fuel p.2

/-- Fuel given to the rejection loops (the source loops without bound; every
concrete draw in this development accepts well within this fuel). -/
def rejectionFuel : Nat := 4096

/-- One scalar draw of the numpy legacy `randint(lo, hi)` with dtype int64
(`random_bounded_uint64_fill` with `use_masked`, count 1): dispatch on the
inclusive range `rng = hi - lo - 1` exactly as the C source does. Returns
`none` when `hi <= lo` (numpy raises ValueError) or when the rejection loop
exhausts its fuel. -/
def randint (st : MTState) (lo hi : Nat) : Option (Nat × MTState) :=
  if hi ≤ lo then none
  else
    let rng := hi - lo - 1
    if rng = 0 then some (lo, st)
    else if rng = mask32 then
      let p := next32 st
      some (lo + p.1, p.2)
    else if rng ≤ mask32 then
      (boundedMasked32 rng (genMask rng) rejectionFuel st).map (fun p => (lo + p.1, p.2))
    else
      (boundedMasked64 rng (genMask rng) rejectionFuel st).map (fun p => (lo + p.1, p.2))

/-- `randint(lo, hi, size=cnt)`: the fill loop threads the state through `cnt`
draws with the same bounds. -/
def randintMany (st : MTState) (lo hi : Nat) : Nat → Option (List Nat × MTState)
  | 0 => if hi ≤ lo then none else some ([], st)
  | cnt+1 =>
    (randint st lo hi).bind fun p =>
      (randintMany p.2 lo hi cnt).map fun q => (p.1 :: q.1, q.2)

/-! ## transform_value (vector_ipr.py) — integer branch -/

/-- The integer branch of `transform_value`: `nod = len(str(value))`, then a
fresh `RandomState(seed)` draws `randint(10^(nod-1), 10^nod)`. -/
def transformValueInt (v : Int) (seed : Nat) : Option Int :=
  let nod := (toString v).length
  (randint (legacySeed seed) (10 ^ (nod - 1)) (10 ^ nod)).map (fun p => (p.1 : Int))

/-! ## transform_value — string branch

The source compiles the regex `([1-9][0-9]*)`, collects all matches with
`findall`, and then, for the i-th match, substitutes
`str(transform_value(int(match), seed+i))` into the current string using
python's `str.replace` — which replaces every occurrence of the matched
substring, not just the i-th match. -/

/-- A character matched by the regex class `[1-9]`. -/
def nzDigit (c : Char) : Bool := c.isDigit && c != '0'

/-- Scan loop for the regex matches; the fuel (at least the list length) only
bounds the recursion depth structurally. -/
def findMatchesGo : Nat → List Char → List (List Char)
  | _, [] => []
  | 0, _ :: _ => []
  | fuel+1, c :: rest =>
    if nzDigit c then
      (c :: rest.takeWhile Char.isDigit) :: findMatchesGo fuel (rest.dropWhile Char.isDigit)
    else
      findMatchesGo fuel rest

/-- All matches of `([1-9][0-9]*)` in scan order: at each position, a nonzero
digit starts a match that greedily takes the following digits (re.findall). -/
def findMatches (l : List Char) : List (List Char) := findMatchesGo l.length l

/-- Numeric value of a digit string (python `int` on a match). -/
def digitsToNat (l : List Char) : Nat :=
  l.foldl (fun a c => 10 * a + (c.toNat - Char.toNat '0')) 0

/-- Scanner of python `str.replace` for a nonempty pattern `o :: os`: replace
each leftmost occurrence and continue after the substituted text.  The fuel
(at least the list length) only bounds the recursion depth structurally. -/
def replaceAllGo (o : Char) (os new : List Char) : Nat → List Char → List Char
  | _, [] => []
  | 0, l => l
  | fuel+1, c :: rest =>
    if (o :: os).isPrefixOf (c :: rest) then
      new ++ replaceAllGo o os new fuel (rest.drop os.length)
    else
      c :: replaceAllGo o os new fuel rest

/-- python `str.replace(old, new)` on char lists (the empty-pattern case
intersperses `new` around every character, as python does; the source only
ever calls it with a nonempty match). -/
def pyReplace (s old new : List Char) : List Char :=
  match old with
  | [] => new ++ s.flatMap (fun c => c :: new)
  | o :: os => replaceAllGo o os new s.length s

/-- The loop of the string branch: for the i-th match, substitute the string
form of the transformed number (seeded `seed + i`) for every occurrence of the
match in the evolving value. -/
def transformValueStrGo (seed : Nat) : List (List Char) → Nat → List Char → Option (List Char)
  | [], _, value => some value
  | m :: ms, i, value =>
    (transformValueInt (digitsToNat m : Int) (seed + i)).bind fun t =>
      transformValueStrGo seed ms (i + 1) (pyReplace value m (toString t).toList)

/-- The string branch of `transform_value` as the source implements it. -/
def transformValueStr (s : String) (seed : Nat) : Option String :=
  (transformValueStrGo seed (findMatches s.data) 0 s.data).map String.mk

/-- Modelled from the claim's wording (for comparison with the source
embedding `transformValueStr`): replace the i-th match of `([1-9][0-9]*)` —
and only that match — with the integer transform of the matched number seeded
`seed + i`, preserving every character outside the matches in place. -/
def claimTransformStrGo (seed : Nat) : Nat → List Char → Nat → Option (List Char)
  | _, [], _ => some []
  | 0, l, _ => some l
  | fuel+1, c :: rest, i =>
    if nzDigit c then
      let ds := c :: rest.takeWhile Char.isDigit
      (transformValueInt (digitsToNat ds : Int) (seed + i)).bind fun t =>
        (claimTransformStrGo seed fuel (rest.dropWhile Char.isDigit) (i + 1)).map
          (fun tail => (toString t).toList ++ tail)
    else
      (claimTransformStrGo seed fuel rest i).map (fun tail => c :: tail)

/-- The per-match replacement semantics the claim describes, on strings. -/
def claimTransformStr (s : String) (seed : Nat) : Option String :=
  (claimTransformStrGo seed s.data.length s.data 0).map String.mk

/-! ## SHA-512 (hashlib.sha512, FIPS 180-4), used by `Ipr._random_state` -/

/-- Mask for 64-bit words. -/
def mask64 : Nat := 0xFFFFFFFFFFFFFFFF

/-- 64-bit right rotation. -/
def rotr64 (x n : Nat) : Nat := ((x >>> n) ||| (x <<< (64 - n))) &&& mask64

/-- The 80 SHA-512 round constants (first 64 bits of the fractional parts of
the cube roots of the first 80 primes). -/
def sha512K : List Nat := [
  4794697086780616226, 8158064640168781261, 13096744586834688815, 16840607885511220156,
  4131703408338449720, 6480981068601479193, 10538285296894168987, 12329834152419229976,
  15566598209576043074, 1334009975649890238, 2608012711638119052, 6128411473006802146,
  8268148722764581231, 9286055187155687089, 11230858885718282805, 13951009754708518548,
  16472876342353939154, 17275323862435702243, 1135362057144423861, 2597628984639134821,
  3308224258029322869, 5365058923640841347, 6679025012923562964, 8573033837759648693,
  10970295158949994411, 12119686244451234320, 12683024718118986047, 13788192230050041572,
  14330467153632333762, 15395433587784984357, 489312712824947311, 1452737877330783856,
  2861767655752347644, 3322285676063803686, 5560940570517711597, 5996557281743188959,
  7280758554555802590, 8532644243296465576, 9350256976987008742, 10552545826968843579,
  11727347734174303076, 12113106623233404929, 14000437183269869457, 14369950271660146224,
  15101387698204529176, 15463397548674623760, 17586052441742319658, 1182934255886127544,
  1847814050463011016, 2177327727835720531, 2830643537854262169, 3796741975233480872,
  4115178125766777443, 5681478168544905931, 6601373596472566643, 7507060721942968483,
  8399075790359081724, 8693463985226723168, 9568029438360202098, 10144078919501101548,
  10430055236837252648, 11840083180663258601, 13761210420658862357, 14299343276471374635,
  14566680578165727644, 15097957966210449927, 16922976911328602910, 17689382322260857208,
  500013540394364858, 748580250866718886, 1242879168328830382, 1977374033974150939,
  2944078676154940804, 3659926193048069267, 4368137639120453308, 4836135668995329356,
  5532061633213252278, 6448918945643986474, 6902733635092675308, 7801388544844847127]

/-- SHA-512 register initial values (fractional parts of square roots of the
first 8 primes). -/
def sha512H0 : List Nat := [
  7640891576956012808, 13503953896175478587, 4354685564936845355, 11912009170470909681,
  5840696475078001361, 11170449401992604703, 2270897969802886507, 6620516959819538809]

/-- Big-endian byte expansion (`k` bytes) of a natural number. -/
def beBytes (k v : Nat) : List Nat :=
  (List.range k).map (fun i => (v >>> (8 * (k - 1 - i))) &&& 0xFF)

/-- Big-endian word value of a byte list. -/
def beWord (bytes : List Nat) : Nat := bytes.foldl (fun a b => a * 256 + b) 0

/-- SHA padding: append 0x80, zero bytes to 112 mod 128, then the 128-bit
big-endian bit length. -/
def shaPad (msg : List Nat) : List Nat :=
  let zeros := (112 + 128 - (msg.length + 1) % 128) % 128
  msg ++ 0x80 :: (List.replicate zeros 0 ++ beBytes 16 (msg.length * 8))

/-- Message-schedule extension: append one word
`w[t] = w[t-16] + s0(w[t-15]) + w[t-7] + s1(w[t-2]) mod 2^64` per fuel step. -/
def shaExtendGo (w : List Nat) : Nat → List Nat
  | 0 => w
  | fuel+1 =>
    let t := w.length
    let w15 := w.getD (t - 15) 0
    let w2 := w.getD (t - 2) 0
    let s0 := rotr64 w15 1 ^^^ rotr64 w15 8 ^^^ (w15 >>> 7)
    let s1 := rotr64 w2 19 ^^^ rotr64 w2 61 ^^^ (w2 >>> 6)
    shaExtendGo (w ++ [(w.getD (t - 16) 0 + s0 + w.getD (t - 7) 0 + s1) &&& mask64]) fuel

/-- One SHA-512 compression round on the register list `[a,b,c,d,e,f,g,h]`,
consuming the pair (round constant, schedule word). -/
def shaRound (regs : List Nat) (kw : Nat × Nat) : List Nat :=
  let a := regs.getD 0 0
  let b := regs.getD 1 0
  let c := regs.getD 2 0
  let d := regs.getD 3 0
  let e := regs.getD 4 0
  let f := regs.getD 5 0
  let g := regs.getD 6 0
  let h := regs.getD 7 0
  let S1 := rotr64 e 14 ^^^ rotr64 e 18 ^^^ rotr64 e 41
  let ch := (e &&& f) ^^^ ((e ^^^ mask64) &&& g)
  let t1 := (h + S1 + ch + kw.1 + kw.2) &&& mask64
  let S0 := rotr64 a 28 ^^^ rotr64 a 34 ^^^ rotr64 a 39
  let mj := (a &&& b) ^^^ (a &&& c) ^^^ (b &&& c)
  let t2 := (S0 + mj) &&& mask64
  [(t1 + t2) &&& mask64, a, b, c, (d + t1) &&& mask64, e, f, g]

/-- Process one 128-byte block. -/
def shaBlock (h : List Nat) (block : List Nat) : List Nat :=
  let w16 := (List.range 16).map (fun i => beWord ((block.drop (8 * i)).take 8))
  let w := shaExtendGo w16 64
  let regs := (sha512K.zip w).foldl shaRound h
  (h.zip regs).map (fun p => (p.1 + p.2) &&& mask64)

/-- Block loop of SHA-512; the fuel (at least the message length) only bounds
the recursion depth, each step consumes one 128-byte block. -/
def shaBlocksGo : List Nat → Nat → List Nat → List Nat
  | h, _, [] => h
  | h, 0, _ :: _ => h
  | h, fuel+1, b :: rest =>
    shaBlocksGo (shaBlock h ((b :: rest).take 128)) fuel ((b :: rest).drop 128)

/-- Fold over all 128-byte blocks of an already padded message. -/
def shaBlocks (h : List Nat) (msg : List Nat) : List Nat := shaBlocksGo h msg.length msg

/-- SHA-512 digest of a byte list, read as the integer `int(hexdigest, 16)`. -/
def sha512Nat (msg : List Nat) : Nat :=
  (shaBlocks sha512H0 (shaPad msg)).foldl (fun a x => (a <<< 64) ||| x) 0

/-- UTF-8 encoding of one character (python `str.encode()`). -/
def utf8Bytes (c : Char) : List Nat :=
  let n := c.toNat
  if n < 0x80 then [n]
  else if n < 0x800 then [0xC0 ||| (n >>> 6), 0x80 ||| (n &&& 0x3F)]
  else if n < 0x10000 then
    [0xE0 ||| (n >>> 12), 0x80 ||| ((n >>> 6) &&& 0x3F), 0x80 ||| (n &&& 0x3F)]
  else
    [0xF0 ||| (n >>> 18), 0x80 ||| ((n >>> 12) &&& 0x3F), 0x80 ||| ((n >>> 6) &&& 0x3F),
     0x80 ||| (n &&& 0x3F)]

/-- UTF-8 bytes of a string. -/
def strBytes (s : String) : List Nat := s.data.flatMap utf8Bytes

/-- Seed of `Ipr._random_state`: the SHA-512 digest of the marker id's bytes
followed by the secret key's bytes, as an integer. -/
def seedOf (uuid key : String) : Nat := sha512Nat (strBytes uuid ++ strBytes key)

/-! ## numpy SeedSequence and the keyed random state

`Ipr._random_state` builds `RandomState(seed=MT19937(SeedSequence(seed)))`.
`SeedSequence` mixes the seed's 32-bit words into a 4-word entropy pool and
expands the pool into the 624-word MT19937 key.  Nothing proved below depends
on the particular mixed values — the claims about this construction concern
determinism and seed (in)equality — but the mixing is embedded in full. -/

/-- SeedSequence `hashmix`: threads the hash constant, returns it updated
together with the mixed value. -/
def ssHashMix (hc value : Nat) : Nat × Nat :=
  let v1 := value ^^^ hc
  let hc1 := (hc * 0x931e8875) &&& mask32
  let v2 := (v1 * hc1) &&& mask32
  (hc1, v2 ^^^ (v2 >>> 16))

/-- SeedSequence `mix` (the subtraction is wrapping uint32 arithmetic). -/
def ssMix (x y : Nat) : Nat :=
  let r := ((x * 0xca01f9dd + 0x10000000000000000) - y * 0x4973f715) &&& mask32
  r ^^^ (r >>> 16)

/-- SeedSequence entropy-pool construction (`mix_entropy` with pool size 4). -/
def ssPool (ent : List Nat) : List Nat :=
  let s1 := (List.range 4).foldl
    (fun st i =>
      let p := ssHashMix st.1 (ent.getD i 0)
      (p.1, st.2 ++ [p.2]))
    ((0x43b0d7e5 : Nat), ([] : List Nat))
  let s2 := (List.range 4).foldl
    (fun st i_src => (List.range 4).foldl
      (fun st i_dst =>
        if i_src = i_dst then st
        else
          let p := ssHashMix st.1 (st.2.getD i_src 0)
          (p.1, st.2.set i_dst (ssMix (st.2.getD i_dst 0) p.2)))
      st)
    s1
  let s3 := ((List.range (ent.length - 4)).map (· + 4)).foldl
    (fun st i_src => (List.range 4).foldl
      (fun st i_dst =>
        let p := ssHashMix st.1 (ent.getD i_src 0)
        (p.1, st.2.set i_dst (ssMix (st.2.getD i_dst 0) p.2)))
      st)
    s2
  s3.2

/-- Fill loop of SeedSequence `generate_state`: position `i` cycles through
the pool, the hash constant threads through the remaining `k` slots. -/
def ssGenStateGo (pool : List Nat) (hc i : Nat) : Nat → List Nat
  | 0 => []
  | k+1 =>
    let v1 := pool.getD (i % 4) 0 ^^^ hc
    let hc1 := (hc * 0x58f38ded) &&& mask32
    let v2 := (v1 * hc1) &&& mask32
    (v2 ^^^ (v2 >>> 16)) :: ssGenStateGo pool hc1 (i + 1) k

/-- SeedSequence `generate_state`: cycle through the pool, mixing with a
second threaded hash constant. -/
def ssGenState (pool : List Nat) (n : Nat) : List Nat :=
  ssGenStateGo pool 0x8b51f9dd 0 n

/-- `Ipr._random_state(uuid)` with secret `key`: MT19937 whose 624-word key is
generated by `SeedSequence(sha512(uuid . key))`, read position exhausted. -/
def randomState (uuid key : String) : MTState :=
  MTState.mk (ssGenState (ssPool (seedWords (seedOf uuid key))) 624) 624

/-- The n-th 32-bit draw from a generator state. -/
def next32Seq (st : MTState) : Nat → Nat
  | 0 => (next32 st).1
  | n+1 => next32Seq (next32 st).2 n

/-! ## Arnold scramble (raster_ipr.py, scramble/unscramble)

The source iterates 1-based `x, y` over `[1, N]`, computes the wrapped
coordinates with python's `%` (always nonnegative), and stores at index
`[y_-1][x_-1]` — python's `-1` index wrapping to the last entry.  Modelling
0-based positions as elements of `ZMod N` absorbs both wrap-arounds into ring
arithmetic. -/

/-- Square binary matrix of side `N`, 0-based positions in `ZMod N`. -/
abbrev Mat (N : Nat) := ZMod N → ZMod N → Bool

/-- Write one cell of a matrix. -/
def writeCell {N : Nat} (m : Mat N) (p : ZMod N × ZMod N) (b : Bool) : Mat N :=
  fun r c => if r = p.1 ∧ c = p.2 then b else m r c

/-- All 0-based (row, column) positions, outer row then inner column — the
iteration order of the source's double loop. -/
def allPairs (N : Nat) : List (ZMod N × ZMod N) :=
  (List.range N).flatMap (fun (y : Nat) =>
    (List.range N).map (fun (x : Nat) => ((y : ZMod N), (x : ZMod N))))

/-- Target of the forward assignment
`scrambled[(x+2y) mod N - 1][(x+y) mod N - 1] = matrix[y-1][x-1]`:
with `p = (y-1, x-1)` the written position is
row `p.2 + 2*p.1 + 2`, column `p.2 + p.1 + 1` in `ZMod N`. -/
def scrambleTarget {N : Nat} (p : ZMod N × ZMod N) : ZMod N × ZMod N :=
  (p.2 + 2 * p.1 + 2, p.2 + p.1 + 1)

/-- Target of the inverse assignment
`matrix[(-x+y) mod N - 1][(2x-y) mod N - 1] = scrambled[y-1][x-1]`:
with `p = (y-1, x-1)` the written position is
row `p.1 - p.2 - 1`, column `2*p.2 - p.1`. -/
def unscrambleTarget {N : Nat} (p : ZMod N × ZMod N) : ZMod N × ZMod N :=
  (p.1 - p.2 - 1, 2 * p.2 - p.1)

/-- One forward Arnold pass: start from a fresh all-False array and perform
every assignment of the double loop. -/
def scrambleStep {N : Nat} (M : Mat N) : Mat N :=
  (allPairs N).foldl (fun acc p => writeCell acc (scrambleTarget p) (M p.1 p.2))
    (fun _ _ => false)

/-- One inverse Arnold pass. -/
def unscrambleStep {N : Nat} (S : Mat N) : Mat N :=
  (allPairs N).foldl (fun acc p => writeCell acc (unscrambleTarget p) (S p.1 p.2))
    (fun _ _ => false)

/-- `scramble(matrix, iterations)`: the source decrements the count, performs
one pass, and recurses while the count stays positive (so any count up to 1
performs exactly one pass). -/
def scramble {N : Nat} : Mat N → Nat → Mat N
  | M, 0 => scrambleStep M
  | M, it+1 => if it > 0 then scramble (scrambleStep M) it else scrambleStep M

/-- `unscramble(scrambled, iterations)`, same recursion shape. -/
def unscramble {N : Nat} : Mat N → Nat → Mat N
  | S, 0 => unscrambleStep S
  | S, it+1 => if it > 0 then unscramble (unscrambleStep S) it else unscrambleStep S

/-- The 2x2 matrix `[[T,F],[F,T]]` of the spec's literal scenario. -/
def diagMat : Mat 2 := fun r c => if r = c then true else false

/-- The 2x2 matrix `[[F,T],[T,F]]` the spec claims the scramble produces. -/
def antiDiagMat : Mat 2 := fun r c => if r = c then false else true

/-- The 2x2 matrix `[[F,T],[F,T]]` the source actually produces. -/
def rightColMat : Mat 2 := fun _ c => if c = 1 then true else false

/-! ## Visible raster embedding (raster_ipr.py, Watermark.embed_image)

The per-band pixel loop is embedded over exact rationals: a pixel value is an
integer sample held in a `ℚ`, the watermark value and alpha are divided by
255, and the guard `wm_value * alpha > 0.1` and the compositing formulas are
the source's expressions verbatim.  Only the loop body is modelled — GDAL I/O
(CreateCopy, WriteArray) preserves the array contents and shapes it is given. -/

/-- python `round`: round half to even (banker's rounding). -/
def pyRound (x : ℚ) : ℤ :=
  let f := ⌊x⌋
  if x - f < 1/2 then f
  else if x - f > 1/2 then f + 1
  else if f % 2 = 0 then f else f + 1

/-- Parameters of one band of `embed_image`: band statistics max, nodata
value, the transparency option, whether this is the Alpha band, and the
`round(mean + std)` value used for the Alpha band. -/
structure BandParams where
  maxValue : ℚ
  noData : Option ℚ
  transparency : ℚ
  isAlpha : Bool
  maxAlpha : ℚ
deriving Repr, DecidableEq

/-- The body of the double loop of `embed_image` for one pixel: `v` is the
raster sample, `wm` the watermark sample, `wmA` the watermark alpha sample. -/
def embedPixel (P : BandParams) (v wm wmA : ℚ) : ℚ :=
  let wmValue := wm / 255
  let alpha := wmA / 255
  if wmValue * alpha > 1/10 then
    if P.isAlpha then
      if some v = P.noData ∨ v = 0 then P.maxAlpha else v
    else
      let a := alpha * P.transparency
      let normValue := (1 - wmValue) * a
      if some v ≠ P.noData then
        let trueValue := v / P.maxValue
        ((pyRound ((1 - (1 - trueValue) * (1 - a) - normValue) * P.maxValue) : ℤ) : ℚ)
      else
        ((pyRound ((1 - normValue) * P.maxValue) : ℤ) : ℚ)
  else v

/-- Cell of a 2-d array with default 0 (in the source the three arrays share
the raster's shape, so the default is never read on aligned inputs). -/
def get2d (a : List (List ℚ)) (i j : Nat) : ℚ := (a.getD i []).getD j 0

/-- Indexed map, mirroring `for i in range(len(a))` loops. -/
def idxMapGo {α β : Type} (f : Nat → α → β) : Nat → List α → List β
  | _, [] => []
  | i, a :: l => f i a :: idxMapGo f (i + 1) l

/-- One band of `embed_image`: the in-place double loop over `raster_arr`,
as a pointwise map (each iteration reads and writes only position (i, j)). -/
def embedBand (P : BandParams) (raster wmArr wmAlphaArr : List (List ℚ)) : List (List ℚ) :=
  idxMapGo (fun i row => idxMapGo (fun j v =>
    embedPixel P v (get2d wmArr i j) (get2d wmAlphaArr i j)) 0 row) 0 raster

/-- Input of one processed band of `embed_image` (for the Alpha band the
source reads the watermark's alpha array for both `wm_arr` and
`wm_alpha_arr`). -/
structure BandInput where
  params : BandParams
  raster : List (List ℚ)
  wmArr : List (List ℚ)
  wmAlphaArr : List (List ℚ)

/-- `embed_image` over its processed bands: every band of the output copy is
rewritten by the per-band loop. -/
def embedImage (bands : List BandInput) : List (List (List ℚ)) :=
  bands.map (fun b => embedBand b.params b.raster b.wmArr b.wmAlphaArr)

/-- Band input used as the concrete witness instance of the frame property. -/
def c4Band : BandInput :=
  BandInput.mk (BandParams.mk 100 none 1 false 0) [[5]] [[10]] [[255]]

/-- The four bands of the spec's 1x1 RGBA scenario: raster pixel
(200, 200, 200, 255), watermark pixel (0, 0, 0, 255), transparency 1; the
Alpha band reads the watermark's alpha for both arrays, and its
`round(mean + std)` value is 255. -/
def c5Inputs : List BandInput :=
  [BandInput.mk (BandParams.mk 200 none 1 false 0) [[200]] [[0]] [[255]],
   BandInput.mk (BandParams.mk 200 none 1 false 0) [[200]] [[0]] [[255]],
   BandInput.mk (BandParams.mk 200 none 1 false 0) [[200]] [[0]] [[255]],
   BandInput.mk (BandParams.mk 255 none 1 true 255) [[255]] [[255]] [[255]]]

/-! ## Vector dataframes (vector_ipr.py, Ipr accessor)

A dataframe is a list of column names plus rows of cells.  Cells carry the
two value kinds the claims exercise (python int and str); the float branch of
`transform_value` is outside this embedding (no claim mentions it, and its
behaviour routes through python's float `repr`).  The module-level
`np.random.randint` that picks the insertion positions of
`Ipr.random_indices` is deliberately unseeded in the source, so it enters the
embedding as an oracle `posDraw`; every keyed draw uses the concrete
`_random_state` stream. -/

/-- A dataframe cell. -/
inductive Value where
  | vint (n : Int)
  | vstr (s : String)
deriving Repr, DecidableEq, BEq

/-- `transform_value` on cells (int and str branches of the source). -/
def transformValue : Value → Nat → Option Value
  | .vint n, seed => (transformValueInt n seed).map .vint
  | .vstr s, seed => (transformValueStr s seed).map .vstr

/-- A dataframe: named columns and rows of cells. -/
structure DF where
  cols : List String
  rows : List (List Value)
deriving Repr, DecidableEq

/-- `Ipr.N`: one fictitious entry per chunk of this many records. -/
def chunkN : Nat := 1000

/-- `Ipr.nmin = N/10`: chunks shorter than this are skipped. -/
def chunkMin : Nat := 100

/-- Cell at row `idx`, column position `i` (`df[idx][i]`). -/
def cell (df : DF) (idx i : Nat) : Value := (df.rows.getD idx []).getD i (.vint 0)

/-- `create_random_row`: column `i` of the synthesized row is
`transform_value(df[rand_map[i]][i], rand_map[i])`. -/
def createRandomRowGo (df : DF) (randMap : List Nat) (i : Nat) : List String → Option (List Value)
  | [] => some []
  | _ :: cs =>
    let idx := randMap.getD i 0
    (transformValue (cell df idx i) idx).bind fun v =>
      (createRandomRowGo df randMap (i + 1) cs).map (v :: ·)

/-- `create_random_row` over all columns. -/
def createRandomRow (df : DF) (randMap : List Nat) : Option (List Value) :=
  createRandomRowGo df randMap 0 df.cols

/-- Chunk loop of `get_random_rows`: for every chunk index, if the chunk holds
at least `nmin` records, draw `rand_map = rs.randint(lower, upper, size=#cols)`
and synthesize one row. -/
def getRandomRowsGo (df : DF) : MTState → List Nat → Option (List (List Value) × MTState)
  | st, [] => some ([], st)
  | st, i :: is =>
    let lower := i * chunkN
    let upper := min ((i + 1) * chunkN) df.rows.length
    if upper - lower < chunkMin then getRandomRowsGo df st is
    else
      (randintMany st lower upper df.cols.length).bind fun p =>
        (createRandomRow df p.1).bind fun row =>
          (getRandomRowsGo df p.2 is).map fun q => (row :: q.1, q.2)

/-- `get_random_rows(uuid)`: deterministic synthesized rows from the keyed
random state. -/
def getRandomRows (df : DF) (uuid key : String) : Option (List (List Value)) :=
  (getRandomRowsGo df (randomState uuid key)
    (List.range ((df.rows.length + chunkN - 1) / chunkN))).map (·.1)

/-- `random_indices`: one insertion position per qualifying chunk, drawn from
the unseeded module RNG — modelled by the oracle `posDraw` reduced into the
chunk's range. -/
def randomIndices (df : DF) (posDraw : Nat → Nat) : List Nat :=
  (List.range ((df.rows.length + chunkN - 1) / chunkN)).filterMap fun i =>
    let lower := i * chunkN
    let upper := min ((i + 1) * chunkN) df.rows.length
    if upper - lower < chunkMin then none
    else some (lower + posDraw i % (upper - lower))

/-- The interleaving loop of `embed_fictitious_entries`: emit `df[offset:idx]`,
then the synthesized row, and continue from `offset = idx`; after the loop
emit `df[offset:]`. -/
def spliceInsert (dfRows : List (List Value)) : Nat → List (Nat × List Value) → List (List Value)
  | offset, [] => dfRows.drop offset
  | offset, (idx, r) :: rest =>
    ((dfRows.drop offset).take (idx - offset)) ++ r :: spliceInsert dfRows idx rest

/-- `embed_fictitious_entries(uuid)`. -/
def embedFictitious (df : DF) (uuid key : String) (posDraw : Nat → Nat) : Option DF :=
  (getRandomRows df uuid key).map fun rows =>
    DF.mk df.cols (spliceInsert df.rows 0 ((randomIndices df posDraw).zip rows))

/-- vaex `part[col] == value` elementwise equality of a cell against a cell. -/
def cellEq (a b : Value) : Bool := a == b

/-- Position of a named column (`part[col]`). -/
def colIdx (df : DF) (c : String) : Nat := df.cols.indexOf c

/-- Distinct count of a column sample (`nunique`). -/
def nunique (l : List Value) : Nat := l.dedup.length

/-- Distinct count of column `i` over the rows (`nunique`), the numerator of
the sparsity score `nunique/count`: every cell of this model is non-null, so
the denominator `count` is the row count, identical for every column, and the
rational scores order exactly as these numerators. -/
def nuniqueCol (df : DF) (i : Nat) : Nat :=
  nunique (df.rows.map (fun r => r.getD i (.vint 0)))

/-- Sparsity score of column `i`: distinct count over non-null count. -/
def sparsityOf (df : DF) (i : Nat) : ℚ :=
  (nuniqueCol df i : ℚ) / (df.rows.length : ℚ)

/-- Stable insertion for the descending sparsity order: `p` goes in front of
the first already-placed column whose score does not exceed `p`'s, so columns
of equal score keep their original relative order, as python's stable
`sorted(..., reverse=True)` does. -/
def insertBySparsity (df : DF) (p : String × Nat) :
    List (String × Nat) → List (String × Nat)
  | [] => [p]
  | q :: qs =>
    if nuniqueCol df q.2 ≤ nuniqueCol df p.2 then p :: q :: qs
    else q :: insertBySparsity df p qs

/-- `_order_columns_by_sparsity`: all column names, stably sorted by
descending sparsity.  The source scores a 10000-row random sample on larger
frames; the sample only permutes this list, and `row_exists` uses it purely
for membership, which every permutation preserves. -/
def orderColumnsBySparsity (df : DF) : List String :=
  ((df.cols.zip (List.range df.cols.length)).foldr (insertBySparsity df) []).map (·.1)

/-- The filter loop of `row_exists`: iterate the row's columns, skip names
absent from `columns`, conjoin equality filters, and fail fast on an empty
intermediate; succeed iff exactly one row remains. -/
def rowExistsGo (test : DF) (columns : List String) :
    List (String × Value) → List (List Value) → Bool
  | [], part => part.length == 1
  | (c, v) :: rest, part =>
    if columns.contains c then
      let part' := part.filter (fun r => cellEq (r.getD (colIdx test c) (.vint 0)) v)
      if part'.length == 0 then false else rowExistsGo test columns rest part'
    else rowExistsGo test columns rest part

/-- `row_exists(row)` on dataframe `test` for a one-row dataframe. -/
def rowExists (test : DF) (rowDf : DF) : Bool :=
  rowExistsGo test (orderColumnsBySparsity test)
    (rowDf.cols.zip (rowDf.rows.getD 0 [])) test.rows

/-- `detect_fictitious_entries(test, uuid)` invoked on the original dataframe:
regenerate the synthesized rows and search each in `test`. -/
def detectFictitious (self test : DF) (uuid key : String) : Option Bool :=
  (getRandomRows self uuid key).map fun rows =>
    rows.any (fun row => rowExists test (DF.mk self.cols [row]))

/-- Number of rows of `test` matching a one-row dataframe on every column
common to both (the set `row_exists` conjoins filters over). -/
def rowMatchCount (test : DF) (rowDf : DF) : Nat :=
  (test.rows.filter (fun r =>
    (rowDf.cols.zip (rowDf.rows.getD 0 [])).all (fun cv =>
      !(orderColumnsBySparsity test).contains cv.1 ||
        cellEq (r.getD (colIdx test cv.1) (.vint 0)) cv.2))).length

/-- A 108-row single-column frame (one qualifying chunk) whose values cycle
through 1..9, so every value a fictitious row can synthesize already occurs
twelve times. -/
def dfRepeated : DF :=
  DF.mk ["c"] ((List.range 108).map (fun i => [Value.vint (((i % 9) + 1 : Nat) : Int)]))

/-- A 9-row single-column frame holding each of 1..9 exactly once. -/
def dfDistinct : DF :=
  DF.mk ["c"] ((List.range 9).map (fun i => [Value.vint ((i + 1 : Nat) : Int)]))

/-! ## Geometry embedding (vector_ipr.py, embed_geometries)

Geometries are a type parameter: claim C10 concerns the row bookkeeping of
`embed_geometries`, so the candidate predicate (`predicates.has_type`) and the
per-geometry transform (`transform_geometry`, which threads the random state)
are parameters of the embedding. -/

/-- A geometric dataframe row: attribute cells plus a geometry. -/
structure GRow (G : Type) where
  attrs : List Value
  geom : G
deriving DecidableEq, Repr

/-- A geometric dataframe. -/
structure GDF (G : Type) where
  cols : List String
  rows : List (GRow G)
deriving DecidableEq, Repr

/-- `np.flatnonzero` of the candidate predicate over the geometry column. -/
def flatNonzero {G : Type} (isCand : G → Bool) (rows : List (GRow G)) : List Nat :=
  (rows.zip (List.range rows.length)).filterMap
    (fun p => if isCand p.1.geom then some p.2 else none)

/-- Insert into a strictly ascending list, keeping it strictly ascending. -/
def insertSorted (x : Nat) : List Nat → List Nat
  | [] => [x]
  | y :: ys => if x < y then x :: y :: ys else if x = y then y :: ys else y :: insertSorted x ys

/-- `np.unique`: ascending distinct values. -/
def sortedUnique (l : List Nat) : List Nat := l.foldr insertSorted []

/-- `get_random_geometries(rs)`: oversample candidate positions
(`ceil(#cand/N) * 10` draws in `[0, #cand)`), then take the distinct sorted
candidate indices. -/
def getRandomGeoms {G : Type} (isCand : G → Bool) (df : GDF G) (st : MTState) :
    Option (List Nat × MTState) :=
  let cand := flatNonzero isCand df.rows
  let n := ((cand.length + chunkN - 1) / chunkN) * 10
  (randintMany st 0 cand.length n).map fun p =>
    (sortedUnique (p.1.map (fun k => cand.getD k 0)), p.2)

/-- The interleaving loop of `embed_geometries`: emit `df[offset:idx]`, then
the row at `idx` with its geometry transformed (threading the random state),
and continue from `offset = idx + 1`. -/
def embedGeomsGo {G : Type} [Inhabited G] (dfRows : List (GRow G))
    (transformG : G → MTState → G × MTState) :
    MTState → Nat → List Nat → List (GRow G) × MTState
  | st, _, [] => ([], st)
  | st, offset, idx :: rest =>
    let row0 := dfRows.getD idx (GRow.mk [] default)
    let p := transformG row0.geom st
    let row := GRow.mk row0.attrs p.1
    let q := embedGeomsGo dfRows transformG p.2 (idx + 1) rest
    (((dfRows.drop offset).take (idx - offset)) ++ row :: q.1, q.2)

/-- `embed_geometries(uuid)`: returns `none` when there is no candidate
geometry (the source raises from `randint(0, 0)`), otherwise the interleaved
frame; the source's final `if idx < len(df)` tail guard is kept verbatim. -/
def embedGeometries {G : Type} [Inhabited G] (isCand : G → Bool)
    (transformG : G → MTState → G × MTState) (df : GDF G) (uuid key : String) :
    Option (GDF G) :=
  (getRandomGeoms isCand df (randomState uuid key)).bind fun p =>
    match p.1 with
    | [] => none
    | i0 :: is =>
      let body := embedGeomsGo df.rows transformG p.2 0 (i0 :: is)
      let lastIdx := (i0 :: is).getLast (by simp)
      some (GDF.mk df.cols
        (body.1 ++ (if lastIdx < df.rows.length then df.rows.drop (lastIdx + 1) else [])))

/-- A two-row geometric frame over `Nat` geometries. -/
def gdfTwo : GDF Nat := GDF.mk ["c"] [GRow.mk [Value.vint 1] 0, GRow.mk [Value.vint 2] 1]

/-- The frame `embed_geometries` produces from `gdfTwo` with the keyed state
of `("u", "k")` and the transform `g ↦ g + 100`: both rows are selected. -/
def gdfTwoOut : GDF Nat := GDF.mk ["c"] [GRow.mk [Value.vint 1] 100, GRow.mk [Value.vint 2] 101]

end Ipr

/-! # Verification of the claims -/

namespace Ipr

/-! ## Arnold scramble: inverse round trip (claims C2, C3) -/

lemma writeCell_self {N : Nat} (m : Mat N) (p : ZMod N × ZMod N) (b : Bool) :
    writeCell m p b p.1 p.2 = b := by
  simp [writeCell]

lemma writeCell_other {N : Nat} (m : Mat N) (p q : ZMod N × ZMod N) (b : Bool) (h : q ≠ p) :
    writeCell m p b q.1 q.2 = m q.1 q.2 := by
  have hc : ¬(q.1 = p.1 ∧ q.2 = p.2) := fun hc => h (Prod.ext hc.1 hc.2)
  simp only [writeCell, if_neg hc]

lemma foldl_write_notin {N : Nat} (f : ZMod N × ZMod N → ZMod N × ZMod N)
    (g : ZMod N × ZMod N → Bool) (l : List (ZMod N × ZMod N)) (init : Mat N)
    (r : ZMod N × ZMod N) (h : ∀ q ∈ l, f q ≠ r) :
    (l.foldl (fun acc p => writeCell acc (f p) (g p)) init) r.1 r.2 = init r.1 r.2 := by
  induction l generalizing init with
  | nil => rfl
  | cons a t ih =>
    simp only [List.foldl_cons]
    rw [ih _ (fun q hq => h q (List.mem_cons_of_mem a hq))]
    exact writeCell_other init (f a) r (g a)
      (fun hc => h a (List.mem_cons_self a t) hc.symm)

lemma foldl_write_hit {N : Nat} (f : ZMod N × ZMod N → ZMod N × ZMod N)
    (g : ZMod N × ZMod N → Bool) (l : List (ZMod N × ZMod N)) (init : Mat N)
    (p : ZMod N × ZMod N)
    (hinj : ∀ a ∈ l, ∀ b ∈ l, f a = f b → a = b) (hp : p ∈ l) :
    (l.foldl (fun acc q => writeCell acc (f q) (g q)) init) (f p).1 (f p).2 = g p := by
  induction l generalizing init with
  | nil => cases hp
  | cons a t ih =>
    simp only [List.foldl_cons]
    by_cases hpt : p ∈ t
    · exact ih _ (fun x hx y hy => hinj x (List.mem_cons_of_mem a hx) y (List.mem_cons_of_mem a hy)) hpt
    · have hpa : p = a := by
        rcases List.mem_cons.mp hp with h | h
        · exact h
        · exact absurd h hpt
      subst hpa
      rw [foldl_write_notin f g t _ (f p)
        (fun q hq hfq => hpt ((hinj q (List.mem_cons_of_mem p hq) p hp hfq) ▸ hq))]
      exact writeCell_self init (f p) (g p)

lemma mem_allPairs {N : Nat} [NeZero N] (p : ZMod N × ZMod N) : p ∈ allPairs N := by
  rcases p with ⟨r, c⟩
  have h1 : ((r.val : ZMod N), (c.val : ZMod N)) ∈
      (List.range N).map (fun (x : Nat) => ((r.val : ZMod N), (x : ZMod N))) :=
    List.mem_map.mpr ⟨c.val, List.mem_range.mpr (ZMod.val_lt c), rfl⟩
  have h2 : ((r.val : ZMod N), (c.val : ZMod N)) ∈ allPairs N :=
    List.mem_flatMap.mpr ⟨r.val, List.mem_range.mpr (ZMod.val_lt r), h1⟩
  have hrc : ((r.val : ZMod N), (c.val : ZMod N)) = (r, c) := by
    rw [ZMod.natCast_rightInverse r, ZMod.natCast_rightInverse c]
  exact hrc ▸ h2

lemma unscrambleTarget_scrambleTarget {N : Nat} (p : ZMod N × ZMod N) :
    unscrambleTarget (scrambleTarget p) = p := by
  rcases p with ⟨r, c⟩
  refine Prod.ext ?_ ?_ <;> simp only [scrambleTarget, unscrambleTarget] <;> ring

lemma scrambleTarget_unscrambleTarget {N : Nat} (p : ZMod N × ZMod N) :
    scrambleTarget (unscrambleTarget p) = p := by
  rcases p with ⟨r, c⟩
  refine Prod.ext ?_ ?_ <;> simp only [scrambleTarget, unscrambleTarget] <;> ring

lemma scrambleTarget_inj {N : Nat} (a b : ZMod N × ZMod N)
    (h : scrambleTarget a = scrambleTarget b) : a = b := by
  have h2 := congrArg unscrambleTarget h
  rwa [unscrambleTarget_scrambleTarget, unscrambleTarget_scrambleTarget] at h2

lemma unscrambleTarget_inj {N : Nat} (a b : ZMod N × ZMod N)
    (h : unscrambleTarget a = unscrambleTarget b) : a = b := by
  have h2 := congrArg scrambleTarget h
  rwa [scrambleTarget_unscrambleTarget, scrambleTarget_unscrambleTarget] at h2

lemma scrambleStep_apply {N : Nat} [NeZero N] (M : Mat N) (p : ZMod N × ZMod N) :
    scrambleStep M (scrambleTarget p).1 (scrambleTarget p).2 = M p.1 p.2 :=
  foldl_write_hit scrambleTarget (fun q => M q.1 q.2) (allPairs N) _ p
    (fun a _ b _ h => scrambleTarget_inj a b h) (mem_allPairs p)

lemma unscrambleStep_apply {N : Nat} [NeZero N] (S : Mat N) (p : ZMod N × ZMod N) :
    unscrambleStep S (unscrambleTarget p).1 (unscrambleTarget p).2 = S p.1 p.2 :=
  foldl_write_hit unscrambleTarget (fun q => S q.1 q.2) (allPairs N) _ p
    (fun a _ b _ h => unscrambleTarget_inj a b h) (mem_allPairs p)

lemma unscrambleStep_scrambleStep {N : Nat} [NeZero N] (M : Mat N) :
    unscrambleStep (scrambleStep M) = M := by
  funext r c
  have h1 := unscrambleStep_apply (scrambleStep M) (scrambleTarget (r, c))
  rw [unscrambleTarget_scrambleTarget] at h1
  calc unscrambleStep (scrambleStep M) r c
      = scrambleStep M (scrambleTarget (r, c)).1 (scrambleTarget (r, c)).2 := h1
    _ = M r c := scrambleStep_apply M (r, c)

lemma scramble_eq_iterate {N : Nat} (M : Mat N) (k : Nat) (hk : 1 ≤ k) :
    scramble M k = scrambleStep^[k] M := by
  induction k generalizing M with
  | zero => omega
  | succ n ih =>
    by_cases hn : n = 0
    · subst hn
      simp [scramble]
    · have h1 : 0 < n := Nat.pos_of_ne_zero hn
      have : scramble M (n + 1) = scramble (scrambleStep M) n := by
        simp [scramble, h1]
      rw [this, ih _ h1, ← Function.iterate_succ_apply]

lemma unscramble_eq_iterate {N : Nat} (S : Mat N) (k : Nat) (hk : 1 ≤ k) :
    unscramble S k = unscrambleStep^[k] S := by
  induction k generalizing S with
  | zero => omega
  | succ n ih =>
    by_cases hn : n = 0
    · subst hn
      simp [unscramble]
    · have h1 : 0 < n := Nat.pos_of_ne_zero hn
      have : unscramble S (n + 1) = unscramble (unscrambleStep S) n := by
        simp [unscramble, h1]
      rw [this, ih _ h1, ← Function.iterate_succ_apply]

lemma unscramble_iterate_scramble_iterate {N : Nat} [NeZero N] (M : Mat N) (k : Nat) :
    unscrambleStep^[k] (scrambleStep^[k] M) = M := by
  induction k with
  | zero => rfl
  | succ n ih =>
    calc unscrambleStep^[n + 1] (scrambleStep^[n + 1] M)
        = unscrambleStep^[n] (unscrambleStep (scrambleStep^[n + 1] M)) :=
          Function.iterate_succ_apply unscrambleStep n _
      _ = unscrambleStep^[n] (unscrambleStep (scrambleStep (scrambleStep^[n] M))) := by
          rw [Function.iterate_succ_apply']
      _ = unscrambleStep^[n] (scrambleStep^[n] M) := by rw [unscrambleStep_scrambleStep]
      _ = M := ih

/-- Claim C2: for every square binary matrix of side N between 2 and 32 and
every iteration count k between 1 and 32, unscramble(scramble(M, k), k) = M. -/
theorem arnold_roundtrip (N : Nat) (hN : 2 ≤ N) (hN32 : N ≤ 32) (M : Mat N)
    (k : Nat) (hk : 1 ≤ k) (hk32 : k ≤ 32) :
    unscramble (scramble M k) k = M := by
  haveI : NeZero N := ⟨by omega⟩
  rw [scramble_eq_iterate M k hk, unscramble_eq_iterate _ k hk,
    unscramble_iterate_scramble_iterate]

/-- Witness for C2 at N = 2, k = 1, M = [[T,F],[F,T]]. -/
theorem arnold_roundtrip_witness :
    2 ≤ 2 ∧ 2 ≤ 32 ∧ 1 ≤ 1 ∧ 1 ≤ 32 ∧ unscramble (scramble diagMat 1) 1 = diagMat :=
  ⟨le_refl 2, by norm_num, le_refl 1, by norm_num,
    arnold_roundtrip 2 (le_refl 2) (by norm_num) diagMat 1 (le_refl 1) (by norm_num)⟩

/-- Claim C3, counterexample: one scramble pass on [[T,F],[F,T]] does not
produce [[F,T],[T,F]] as the spec's literal scenario states. -/
theorem scramble_2x2_not_antidiag : scramble diagMat 1 ≠ antiDiagMat := by decide

/-- Claim C3 (amended): one scramble pass on [[T,F],[F,T]] produces
[[F,T],[F,T]], and one unscramble pass on that result restores [[T,F],[F,T]]. -/
theorem scramble_2x2_value :
    scramble diagMat 1 = rightColMat ∧ unscramble rightColMat 1 = diagMat :=
  ⟨by decide, by decide⟩

end Ipr

namespace Ipr

/-! ## Visible embedding: frame effect (claims C4, C5) -/

lemma idxMapGo_length {α β : Type} (f : Nat → α → β) (i : Nat) (l : List α) :
    (idxMapGo f i l).length = l.length := by
  induction l generalizing i with
  | nil => rfl
  | cons a t ih => simp [idxMapGo, ih]

lemma idxMapGo_get {α β : Type} (f : Nat → α → β) (i : Nat) (l : List α) (j : Nat)
    (h : j < l.length) (h2 : j < (idxMapGo f i l).length) :
    (idxMapGo f i l).get ⟨j, h2⟩ = f (i + j) (l.get ⟨j, h⟩) := by
  induction l generalizing i j with
  | nil => exact absurd h (by simp)
  | cons a t ih =>
    cases j with
    | zero => simp [idxMapGo]
    | succ m =>
      have hm : m < t.length := by simpa using h
      have hm2 : m < (idxMapGo f (i + 1) t).length := by
        rw [idxMapGo_length]; exact hm
      have : (idxMapGo f i (a :: t)).get ⟨m + 1, h2⟩ = (idxMapGo f (i + 1) t).get ⟨m, hm2⟩ := rfl
      rw [this, ih (i + 1) m hm hm2]
      congr 1
      omega

lemma getD_eq_get {α : Type} (l : List α) (d : α) (i : Nat) (h : i < l.length) :
    l.getD i d = l.get ⟨i, h⟩ := by
  induction l generalizing i with
  | nil => exact absurd h (by simp)
  | cons a t ih =>
    cases i with
    | zero => rfl
    | succ m => exact ih m (by simpa using h)

lemma getD_eq_default {α : Type} (l : List α) (d : α) (i : Nat) (h : l.length ≤ i) :
    l.getD i d = d := by
  induction l generalizing i with
  | nil => cases i <;> rfl
  | cons a t ih =>
    cases i with
    | zero => exact absurd h (by simp)
    | succ m => exact ih m (by simpa using h)

lemma embedBand_length (P : BandParams) (r w a : List (List ℚ)) :
    (embedBand P r w a).length = r.length := idxMapGo_length _ _ _

lemma embedBand_row_length (P : BandParams) (r w a : List (List ℚ)) (i : Nat) :
    ((embedBand P r w a).getD i []).length = (r.getD i []).length := by
  by_cases hi : i < r.length
  · have hi2 : i < (embedBand P r w a).length := by rw [embedBand_length]; exact hi
    rw [getD_eq_get _ _ i hi2, getD_eq_get _ _ i hi]
    unfold embedBand
    rw [idxMapGo_get _ 0 r i hi]
    exact idxMapGo_length _ _ _
  · have hi' : r.length ≤ i := Nat.le_of_not_lt hi
    rw [getD_eq_default r [] i hi', getD_eq_default _ [] i (by rw [embedBand_length]; exact hi')]

lemma embedBand_pixel (P : BandParams) (r w a : List (List ℚ)) (i j : Nat) :
    get2d (embedBand P r w a) i j
      = if i < r.length ∧ j < (r.getD i []).length
          then embedPixel P (get2d r i j) (get2d w i j) (get2d a i j)
          else get2d r i j := by
  by_cases hi : i < r.length
  · have hi2 : i < (embedBand P r w a).length := by rw [embedBand_length]; exact hi
    by_cases hj : j < (r.getD i []).length
    · rw [if_pos ⟨hi, hj⟩]
      unfold get2d
      rw [getD_eq_get _ _ i hi2]
      unfold embedBand
      rw [idxMapGo_get _ 0 r i hi]
      have hj2 : j < (idxMapGo (fun j v =>
          embedPixel P v (get2d w (0 + i) j) (get2d a (0 + i) j)) 0 (r.get ⟨i, hi⟩)).length := by
        rw [idxMapGo_length, ← getD_eq_get r [] i hi]
        exact hj
      have hj1 : j < (r.get ⟨i, hi⟩).length := by
        rw [← getD_eq_get r [] i hi]; exact hj
      rw [getD_eq_get _ _ j hj2, idxMapGo_get _ 0 _ j hj1]
      simp only [Nat.zero_add]
      rw [getD_eq_get r [] i hi, getD_eq_get _ _ j hj1]
      rfl
    · rw [if_neg (fun hc => hj hc.2)]
      unfold get2d
      rw [getD_eq_get _ _ i hi2]
      unfold embedBand
      rw [idxMapGo_get _ 0 r i hi]
      have hj1 : (r.get ⟨i, hi⟩).length ≤ j := by
        rw [← getD_eq_get r [] i hi]; exact Nat.le_of_not_lt hj
      rw [getD_eq_default _ _ j (by rw [idxMapGo_length]; exact hj1),
        getD_eq_get r [] i hi, getD_eq_default _ _ j hj1]
  · have hi' : r.length ≤ i := Nat.le_of_not_lt hi
    rw [if_neg (fun hc => hi hc.1)]
    unfold get2d
    rw [getD_eq_default r [] i hi', getD_eq_default _ [] i (by rw [embedBand_length]; exact hi')]

/-- Claim C4: for every processed band of the visible embedder, the output
band has the input band's dimensions, and every pixel whose prepared
watermark satisfies wm_value * alpha <= 0.1 is bit-identical to the input. -/
theorem embed_image_frame (bands : List BandInput) (b : BandInput) (hb : b ∈ bands) :
    embedBand b.params b.raster b.wmArr b.wmAlphaArr ∈ embedImage bands ∧
    (embedBand b.params b.raster b.wmArr b.wmAlphaArr).length = b.raster.length ∧
    (∀ i, ((embedBand b.params b.raster b.wmArr b.wmAlphaArr).getD i []).length
        = (b.raster.getD i []).length) ∧
    ∀ i j, (get2d b.wmArr i j / 255) * (get2d b.wmAlphaArr i j / 255) ≤ 1 / 10 →
      get2d (embedBand b.params b.raster b.wmArr b.wmAlphaArr) i j = get2d b.raster i j := by
  refine ⟨List.mem_map_of_mem _ hb, embedBand_length _ _ _ _, embedBand_row_length _ _ _ _, ?_⟩
  intro i j hcond
  rw [embedBand_pixel]
  split
  · unfold embedPixel
    rw [if_neg (not_lt.mpr hcond)]
  · rfl

/-- Witness for C4: a 1x1 band with a dark watermark pixel (10/255 gray,
opaque) is below the threshold and stays unchanged. -/
theorem embed_image_frame_witness :
    (get2d c4Band.wmArr 0 0 / 255) * (get2d c4Band.wmAlphaArr 0 0 / 255) ≤ 1 / 10 ∧
    get2d (embedBand c4Band.params c4Band.raster c4Band.wmArr c4Band.wmAlphaArr) 0 0
      = get2d c4Band.raster 0 0 := by
  have hcond : (get2d c4Band.wmArr 0 0 / 255) * (get2d c4Band.wmAlphaArr 0 0 / 255) ≤ 1 / 10 := by
    norm_num [get2d, c4Band]
  exact ⟨hcond, (embed_image_frame [c4Band] c4Band (List.mem_singleton.mpr rfl)).2.2.2 0 0 hcond⟩

/-- Claim C5, counterexample: the spec's 1x1 scenario (raster (200,200,200,255),
black opaque watermark, transparency 1) does not produce (0,0,0,255): the black
watermark pixel has wm_value = 0, so the guard skips it. -/
theorem visible_embed_1x1_not_black :
    embedImage c5Inputs ≠ [[[0]], [[0]], [[0]], [[255]]] := by
  have he : embedImage c5Inputs = [[[200]], [[200]], [[200]], [[255]]] := by
    norm_num [c5Inputs, embedImage, embedBand, idxMapGo, get2d, embedPixel]
  rw [he]
  intro hc
  have h0 := List.head_eq_of_cons_eq hc
  have h1 := List.head_eq_of_cons_eq h0
  have h2 := List.head_eq_of_cons_eq h1
  norm_num at h2

/-- Claim C5 (amended): the scenario's output pixel equals the input
(200, 200, 200, 255) — every band is left untouched because
wm_value * alpha = 0 <= 0.1 on a black watermark pixel. -/
theorem visible_embed_1x1_unchanged :
    embedImage c5Inputs = [[[200]], [[200]], [[200]], [[255]]] := by
  norm_num [c5Inputs, embedImage, embedBand, idxMapGo, get2d, embedPixel]

end Ipr

namespace Ipr

/-! ## transform_value integer branch: range and determinism (claim C6) -/

lemma boundedMasked32_le (rng mask fuel : Nat) (st st' : MTState) (val : Nat)
    (h : boundedMasked32 rng mask fuel st = some (val, st')) : val ≤ rng := by
  induction fuel generalizing st with
  | zero => exact absurd h (by simp [boundedMasked32])
  | succ n ih =>
    rw [boundedMasked32] at h
    split at h
    · cases h
      assumption
    · exact ih _ h

lemma boundedMasked64_le (rng mask fuel : Nat) (st st' : MTState) (val : Nat)
    (h : boundedMasked64 rng mask fuel st = some (val, st')) : val ≤ rng := by
  induction fuel generalizing st with
  | zero => exact absurd h (by simp [boundedMasked64])
  | succ n ih =>
    rw [boundedMasked64] at h
    split at h
    · cases h
      assumption
    · exact ih _ h

lemma randint_mem (st st' : MTState) (lo hi r : Nat)
    (h : randint st lo hi = some (r, st')) (hne : hi - lo - 1 ≠ mask32) :
    lo ≤ r ∧ r < hi := by
  unfold randint at h
  by_cases hlt : hi ≤ lo
  · rw [if_pos hlt] at h
    cases h
  · rw [if_neg hlt] at h
    dsimp only at h
    have hlohi : lo < hi := Nat.lt_of_not_le hlt
    by_cases h0 : hi - lo - 1 = 0
    · rw [if_pos h0] at h
      cases h
      exact ⟨Nat.le_refl lo, by omega⟩
    · rw [if_neg h0] at h
      by_cases hm : hi - lo - 1 = mask32
      · exact absurd hm hne
      · rw [if_neg hm] at h
        by_cases hle : hi - lo - 1 ≤ mask32
        · rw [if_pos hle] at h
          rcases Option.map_eq_some'.mp h with ⟨p, hp, hpr⟩
          rcases p with ⟨v, stv⟩
          have hv : v ≤ hi - lo - 1 := boundedMasked32_le _ _ _ _ _ _ hp
          cases hpr
          exact ⟨Nat.le_add_right lo v, by omega⟩
        · rw [if_neg hle] at h
          rcases Option.map_eq_some'.mp h with ⟨p, hp, hpr⟩
          rcases p with ⟨v, stv⟩
          have hv : v ≤ hi - lo - 1 := boundedMasked64_le _ _ _ _ _ _ hp
          cases hpr
          exact ⟨Nat.le_add_right lo v, by omega⟩

lemma nine_ten_pow_ne (k : Nat) : 9 * 10 ^ k ≠ 2 ^ 32 := by
  intro h
  have h3 : 3 ∣ 9 * 10 ^ k := ⟨3 * 10 ^ k, by ring⟩
  rw [h] at h3
  have := Nat.Prime.dvd_of_dvd_pow (p := 3) (by norm_num) h3
  norm_num at this

/-- Claim C6: for every positive integer with d decimal digits and every seed,
the integer transform — whenever its rejection loop accepts — lands in
[10^(d-1), 10^d), and repeated calls with the same arguments agree. -/
theorem transform_value_int_range (v : Int) (hv : 0 < v) (seed : Nat) (r : Int)
    (h : transformValueInt v seed = some r) :
    ((10 : Int) ^ ((toString v).length - 1) ≤ r ∧ r < 10 ^ (toString v).length) ∧
    ∀ r2 : Int, transformValueInt v seed = some r2 → r2 = r := by
  refine ⟨?_, fun r2 h2 => by rw [h] at h2; exact (Option.some_inj.mp h2).symm⟩
  unfold transformValueInt at h
  rcases Option.map_eq_some'.mp h with ⟨p, hp, hpr⟩
  rcases p with ⟨rn, stn⟩
  cases hpr
  set nod := (toString v).length with hnod
  rcases Nat.eq_zero_or_pos nod with h0 | hpos
  · rw [h0] at hp
    simp only [Nat.zero_sub, pow_zero] at hp
    unfold randint at hp
    rw [if_pos (Nat.le_refl 1)] at hp
    cases hp
  · have hlohi : (10 : Nat) ^ (nod - 1) < 10 ^ nod :=
      Nat.pow_lt_pow_right (by norm_num) (by omega)
    have hdiff : (10 : Nat) ^ nod - 10 ^ (nod - 1) = 9 * 10 ^ (nod - 1) := by
      have : (10 : Nat) ^ nod = 10 * 10 ^ (nod - 1) := by
        rw [← pow_succ']
        congr 1
        omega
      omega
    have hne : (10 : Nat) ^ nod - 10 ^ (nod - 1) - 1 ≠ mask32 := by
      rw [hdiff]
      intro hc
      have h932 : 9 * 10 ^ (nod - 1) = 2 ^ 32 := by
        have hpos9 : 0 < 9 * 10 ^ (nod - 1) := by positivity
        unfold mask32 at hc
        omega
      exact nine_ten_pow_ne (nod - 1) h932
    have := randint_mem _ _ _ _ _ hp hne
    constructor
    · exact_mod_cast this.1
    · exact_mod_cast this.2

/-- Witness for C6 at v = 1234, seed = 42: the drawn value is 8270, which has
exactly 4 digits. -/
theorem transform_value_int_range_witness :
    (0 : Int) < 1234 ∧ (10 : Int) ^ ((toString (1234 : Int)).length - 1) ≤ 8270 ∧
      (8270 : Int) < 10 ^ (toString (1234 : Int)).length :=
  ⟨by norm_num,
    (transform_value_int_range 1234 (by norm_num) 42 8270 (by decide)).1.1,
    (transform_value_int_range 1234 (by norm_num) 42 8270 (by decide)).1.2⟩

end Ipr

namespace Ipr

/-! ## Keyed RNG (claim C1)

The seed of `_random_state` is the SHA-512 digest of `uuid . key`.  Identical
inputs give identical generator states, hence bit-identical draw sequences.
Distinct inputs give distinct seeds exactly when the digests differ — which
holds for every concrete pair tested, but cannot hold universally: the digest
is bounded by 2^512 while there are infinitely many marker ids, so some two
distinct ids share a seed (pigeonhole). -/

lemma getD_lt_two_pow {l : List Nat} (h : ∀ x ∈ l, x < 2 ^ 64) (i : Nat) :
    l.getD i 0 < 2 ^ 64 := by
  by_cases hi : i < l.length
  · rw [getD_eq_get l 0 i hi]
    exact h _ (List.get_mem l i hi)
  · rw [getD_eq_default l 0 i (Nat.le_of_not_lt hi)]
    positivity

lemma and_mask64_lt (x : Nat) : x &&& mask64 < 2 ^ 64 :=
  Nat.lt_of_le_of_lt (Nat.and_le_right) (by norm_num [mask64])

lemma shaRound_length (regs : List Nat) (kw : Nat × Nat) : (shaRound regs kw).length = 8 := rfl

lemma shaRound_bounds (regs : List Nat) (kw : Nat × Nat) (h : ∀ x ∈ regs, x < 2 ^ 64) :
    ∀ x ∈ shaRound regs kw, x < 2 ^ 64 := by
  intro x hx
  unfold shaRound at hx
  simp only [List.mem_cons, List.mem_singleton] at hx
  rcases hx with rfl | rfl | rfl | rfl | rfl | rfl | rfl | rfl | hfalse
  · exact and_mask64_lt _
  · exact getD_lt_two_pow h 0
  · exact getD_lt_two_pow h 1
  · exact getD_lt_two_pow h 2
  · exact and_mask64_lt _
  · exact getD_lt_two_pow h 4
  · exact getD_lt_two_pow h 5
  · exact getD_lt_two_pow h 6
  · cases hfalse

lemma foldl_shaRound_out (l : List (Nat × Nat)) (regs : List Nat)
    (h8 : regs.length = 8) (hb : ∀ x ∈ regs, x < 2 ^ 64) :
    (l.foldl shaRound regs).length = 8 ∧ ∀ x ∈ l.foldl shaRound regs, x < 2 ^ 64 := by
  induction l generalizing regs with
  | nil => exact ⟨h8, hb⟩
  | cons a t ih =>
    exact ih (shaRound regs a) (shaRound_length regs a) (shaRound_bounds regs a hb)

lemma shaBlock_out (h block : List Nat) (h8 : h.length = 8) (hb : ∀ x ∈ h, x < 2 ^ 64) :
    (shaBlock h block).length = 8 ∧ ∀ x ∈ shaBlock h block, x < 2 ^ 64 := by
  unfold shaBlock
  have hregs := foldl_shaRound_out (sha512K.zip (shaExtendGo
    ((List.range 16).map (fun i => beWord ((block.drop (8 * i)).take 8))) 64)) h h8 hb
  constructor
  · rw [List.length_map, List.length_zip, h8, hregs.1]
    exact Nat.min_self 8
  · intro x hx
    rcases List.mem_map.mp hx with ⟨p, _, hp⟩
    rw [← hp]
    exact and_mask64_lt _

lemma shaBlocksGo_out (fuel : Nat) (msg h : List Nat)
    (h8 : h.length = 8) (hb : ∀ x ∈ h, x < 2 ^ 64) :
    (shaBlocksGo h fuel msg).length = 8 ∧ ∀ x ∈ shaBlocksGo h fuel msg, x < 2 ^ 64 := by
  induction fuel generalizing h msg with
  | zero =>
    cases msg with
    | nil => exact ⟨h8, hb⟩
    | cons b rest => exact ⟨h8, hb⟩
  | succ n ih =>
    cases msg with
    | nil => exact ⟨h8, hb⟩
    | cons b rest =>
      have hblk := shaBlock_out h ((b :: rest).take 128) h8 hb
      exact ih _ _ hblk.1 hblk.2

lemma sha512H0_out : sha512H0.length = 8 ∧ ∀ x ∈ sha512H0, x < 2 ^ 64 := by decide

lemma foldOr_lt (l : List Nat) (a k : Nat) (ha : a < 2 ^ k) (hl : ∀ x ∈ l, x < 2 ^ 64) :
    l.foldl (fun a x => (a <<< 64) ||| x) a < 2 ^ (k + 64 * l.length) := by
  induction l generalizing a k with
  | nil => simpa using ha
  | cons x t ih =>
    have hx : x < 2 ^ 64 := hl x (List.mem_cons_self x t)
    have hsh : (a <<< 64) ||| x < 2 ^ (k + 64) := by
      apply Nat.or_lt_two_pow
      · rw [Nat.shiftLeft_eq, pow_add]
        exact Nat.mul_lt_mul_of_lt_of_le ha (Nat.le_refl _) (by positivity)
      · exact Nat.lt_of_lt_of_le hx (Nat.pow_le_pow_right (by norm_num) (by omega))
    have := ih ((a <<< 64) ||| x) (k + 64) hsh (fun y hy => hl y (List.mem_cons_of_mem x hy))
    have harith : k + 64 + 64 * t.length = k + 64 * (t.length + 1) := by ring
    rw [List.length_cons, ← harith]
    exact this

lemma sha512Nat_lt (msg : List Nat) : sha512Nat msg < 2 ^ 512 := by
  unfold sha512Nat shaBlocks
  have hout := shaBlocksGo_out (shaPad msg).length (shaPad msg) sha512H0
    sha512H0_out.1 sha512H0_out.2
  have := foldOr_lt _ 0 0 (by norm_num) hout.2
  rw [hout.1] at this
  simpa using this

lemma seedOf_lt (uuid key : String) : seedOf uuid key < 2 ^ 512 := sha512Nat_lt _

/-- Claim C1, counterexample (to the universal distinctness clause): it is not
the case that every two distinct marker ids give distinct seeds under every
secret — the seed is a 512-bit digest of an unbounded id space, so two
distinct ids must collide (pigeonhole; no explicit collision is computable,
which is exactly why the clause fails only in principle). -/
theorem keyed_rng_seed_not_injective :
    ¬ ∀ (id1 id2 key : String), id1 ≠ id2 → seedOf id1 key ≠ seedOf id2 key := by
  intro h
  obtain ⟨x, y, hxy, heq⟩ := Finite.exists_ne_map_eq_of_infinite
    (fun n : ℕ => (⟨seedOf (String.mk (List.replicate n 'a')) "", seedOf_lt _ _⟩ : Fin (2 ^ 512)))
  apply h (String.mk (List.replicate x 'a')) (String.mk (List.replicate y 'a')) ""
  · intro hs
    apply hxy
    have hlen := congrArg (fun s : String => s.data.length) hs
    simpa using hlen
  · exact congrArg Fin.val heq

/-- Claim C1 (amended): invocations of the keyed RNG with identical marker id
and secret yield bit-identical draw sequences; and distinct digests give
distinct seeds — witnessed by the concrete pairs ("a","k") vs ("b","k") and
("a","k1") vs ("a","k2") — though seed distinctness cannot hold for all
distinct ids (see the pigeonhole counterexample). -/
theorem keyed_rng_determinism :
    (∀ (id1 key1 id2 key2 : String), id1 = id2 → key1 = key2 →
      ∀ n, next32Seq (randomState id1 key1) n = next32Seq (randomState id2 key2) n) ∧
    seedOf "a" "k" ≠ seedOf "b" "k" ∧ seedOf "a" "k1" ≠ seedOf "a" "k2" := by
  refine ⟨fun id1 key1 id2 key2 h1 h2 n => by rw [h1, h2], by decide, by decide⟩

/-- Witness for C1's determinism clause at the concrete pair ("a", "k"). -/
theorem keyed_rng_determinism_witness :
    next32Seq (randomState "a" "k") 0 = next32Seq (randomState "a" "k") 0 :=
  keyed_rng_determinism.1 "a" "k" "a" "k" rfl rfl 0

end Ipr

namespace Ipr

/-! ## transform_value string branch (claim C7)

The source substitutes each transformed match with python's global
`str.replace`.  With two or more matches this diverges from the claim's
per-match replacement; with at most one match the two coincide, because a
single match is also the unique occurrence of its text (any other occurrence
would start a further match). -/

lemma head_dropWhile_not (p : Char → Bool) :
    ∀ (l : List Char) (d : Char), (l.dropWhile p).head? = some d → p d = false := by
  intro l
  induction l with
  | nil => intro d h; simp at h
  | cons c t ih =>
    intro d h
    by_cases hc : p c
    · rw [List.dropWhile_cons, if_pos hc] at h
      exact ih d h
    · rw [List.dropWhile_cons, if_neg hc] at h
      simp only [List.head?_cons, Option.some_inj] at h
      rw [← h]
      exact Bool.eq_false_iff.mpr hc

lemma takeWhile_digits_append (cs post : List Char)
    (hcs : ∀ c ∈ cs, c.isDigit = true)
    (hpost : ∀ d, post.head? = some d → d.isDigit = false) :
    (cs ++ post).takeWhile Char.isDigit = cs ∧ (cs ++ post).dropWhile Char.isDigit = post := by
  induction cs with
  | nil =>
    simp only [List.nil_append]
    cases post with
    | nil => simp
    | cons d t =>
      have hd : d.isDigit = false := hpost d rfl
      constructor
      · rw [List.takeWhile_cons, if_neg (by simp [hd])]
      · rw [List.dropWhile_cons, if_neg (by simp [hd])]
  | cons c cs' ih =>
    have hc : c.isDigit = true := hcs c (List.mem_cons_self _ _)
    have ihr := ih (fun x hx => hcs x (List.mem_cons_of_mem c hx))
    constructor
    · rw [List.cons_append, List.takeWhile_cons, if_pos hc, ihr.1]
    · rw [List.cons_append, List.dropWhile_cons, if_pos hc, ihr.2]

lemma findMatchesGo_nil_forall (fuel : Nat) (l : List Char) (hf : l.length ≤ fuel)
    (h : findMatchesGo fuel l = []) : ∀ c ∈ l, nzDigit c = false := by
  induction fuel generalizing l with
  | zero =>
    cases l with
    | nil => intro c hc; cases hc
    | cons c t => simp at hf
  | succ g ih =>
    cases l with
    | nil => intro c hc; cases hc
    | cons c t =>
      simp only [findMatchesGo] at h
      by_cases hc : nzDigit c
      · rw [if_pos hc] at h
        cases h
      · rw [if_neg hc] at h
        intro x hx
        rcases List.mem_cons.mp hx with rfl | hx'
        · exact Bool.eq_false_iff.mpr hc
        · exact ih t (by simp at hf; omega) h x hx'

lemma findMatchesGo_single (fuel : Nat) (l m : List Char) (hf : l.length ≤ fuel)
    (h : findMatchesGo fuel l = [m]) :
    ∃ pre c0 cs post, l = pre ++ (c0 :: cs) ++ post ∧ m = c0 :: cs ∧
      (∀ c ∈ pre, nzDigit c = false) ∧ nzDigit c0 = true ∧
      (∀ c ∈ cs, c.isDigit = true) ∧
      (∀ c ∈ post, nzDigit c = false) ∧
      (∀ d, post.head? = some d → d.isDigit = false) := by
  induction fuel generalizing l with
  | zero =>
    cases l with
    | nil => cases h
    | cons c t => simp at hf
  | succ g ih =>
    cases l with
    | nil => cases h
    | cons c t =>
      simp only [findMatchesGo] at h
      by_cases hc : nzDigit c
      · rw [if_pos hc] at h
        have h1 : c :: t.takeWhile Char.isDigit = m ∧
            findMatchesGo g (t.dropWhile Char.isDigit) = [] := by
          have := List.cons.injEq (c :: t.takeWhile Char.isDigit)
            (findMatchesGo g (t.dropWhile Char.isDigit)) m []
          rw [this] at h
          exact h
        refine ⟨[], c, t.takeWhile Char.isDigit, t.dropWhile Char.isDigit, ?_, ?_, ?_, ?_, ?_, ?_, ?_⟩
        · simp [List.takeWhile_append_dropWhile]
        · exact h1.1.symm
        · intro x hx
          cases hx
        · exact hc
        · intro x hx
          exact List.mem_takeWhile_imp hx
        · exact findMatchesGo_nil_forall g _
            (Nat.le_trans ((List.dropWhile_sublist _).length_le) (by simp at hf; omega)) h1.2
        · intro d hd
          exact head_dropWhile_not Char.isDigit t d hd
      · rw [if_neg hc] at h
        obtain ⟨pre, c0, cs, post, hl, hm, hpre, hc0, hcs, hpost, hhd⟩ :=
          ih t (by simp at hf; omega) h
        refine ⟨c :: pre, c0, cs, post, by simp [hl], hm, ?_, hc0, hcs, hpost, hhd⟩
        intro x hx
        rcases List.mem_cons.mp hx with rfl | hx'
        · exact Bool.eq_false_iff.mpr hc
        · exact hpre x hx'

lemma claimGo_of_no_nz (seed : Nat) (l : List Char) (i fuel : Nat) (hf : l.length ≤ fuel)
    (h : ∀ c ∈ l, nzDigit c = false) :
    claimTransformStrGo seed fuel l i = some l := by
  induction fuel generalizing l i with
  | zero =>
    cases l with
    | nil => rfl
    | cons c t => simp at hf
  | succ g ih =>
    cases l with
    | nil => rfl
    | cons c t =>
      have hc : nzDigit c = false := h c (List.mem_cons_self _ _)
      simp only [claimTransformStrGo]
      rw [if_neg (by simp [hc])]
      rw [ih t i (by simp at hf; omega) (fun x hx => h x (List.mem_cons_of_mem c hx))]
      rfl

lemma claimGo_pre (seed : Nat) (pre rest : List Char) (i fuel : Nat)
    (hf : (pre ++ rest).length ≤ fuel)
    (hpre : ∀ c ∈ pre, nzDigit c = false) :
    claimTransformStrGo seed fuel (pre ++ rest) i
      = (claimTransformStrGo seed (fuel - pre.length) rest i).map (pre ++ ·) := by
  induction pre generalizing fuel i with
  | nil =>
    simp only [List.nil_append, List.length_nil, Nat.sub_zero]
    cases claimTransformStrGo seed fuel rest i <;> simp
  | cons c pre' ih =>
    obtain ⟨g, rfl⟩ : ∃ g, fuel = g + 1 := ⟨fuel - 1, by simp at hf; omega⟩
    have hc : nzDigit c = false := hpre c (List.mem_cons_self _ _)
    simp only [List.cons_append, claimTransformStrGo, List.append_eq]
    rw [if_neg (by simp [hc])]
    rw [ih i g (by simp at hf ⊢; omega) (fun x hx => hpre x (List.mem_cons_of_mem c hx))]
    have harith : g + 1 - (c :: pre').length = g - pre'.length := by simp
    rw [harith]
    cases claimTransformStrGo seed (g - pre'.length) rest i <;> simp

lemma isPrefixOf_append_self (m post : List Char) : m.isPrefixOf (m ++ post) = true := by
  induction m with
  | nil => simp [List.isPrefixOf]
  | cons a t ih => simp [List.isPrefixOf, ih]

lemma replaceAllGo_none (o : Char) (os new : List Char) (fuel : Nat) (l : List Char)
    (hf : l.length ≤ fuel) (ho : nzDigit o = true)
    (hl : ∀ c ∈ l, nzDigit c = false) :
    replaceAllGo o os new fuel l = l := by
  induction fuel generalizing l with
  | zero =>
    cases l with
    | nil => rfl
    | cons c t => simp at hf
  | succ g ih =>
    cases l with
    | nil => rfl
    | cons c t =>
      have hc : nzDigit c = false := hl c (List.mem_cons_self _ _)
      have hco : ¬((o :: os).isPrefixOf (c :: t) = true) := by
        simp only [List.isPrefixOf, Bool.and_eq_true, beq_iff_eq]
        intro hpref
        rw [hpref.1] at ho
        rw [ho] at hc
        cases hc
      simp only [replaceAllGo]
      rw [if_neg hco, ih t (by simp at hf; omega) (fun x hx => hl x (List.mem_cons_of_mem c hx))]

lemma replaceAllGo_pre (o : Char) (os new pre rest : List Char) (fuel : Nat)
    (hf : (pre ++ rest).length ≤ fuel) (ho : nzDigit o = true)
    (hpre : ∀ c ∈ pre, nzDigit c = false) :
    replaceAllGo o os new fuel (pre ++ rest)
      = pre ++ replaceAllGo o os new (fuel - pre.length) rest := by
  induction pre generalizing fuel with
  | nil => simp
  | cons c pre' ih =>
    obtain ⟨g, rfl⟩ : ∃ g, fuel = g + 1 := ⟨fuel - 1, by simp at hf; omega⟩
    have hc : nzDigit c = false := hpre c (List.mem_cons_self _ _)
    have hco : ¬((o :: os).isPrefixOf (c :: (pre' ++ rest)) = true) := by
      simp only [List.isPrefixOf, Bool.and_eq_true, beq_iff_eq]
      intro hpref
      rw [hpref.1] at ho
      rw [ho] at hc
      cases hc
    simp only [List.cons_append, replaceAllGo, List.append_eq]
    rw [if_neg hco, ih g (by simp at hf ⊢; omega) (fun x hx => hpre x (List.mem_cons_of_mem c hx))]
    have harith : g + 1 - (c :: pre').length = g - pre'.length := by simp
    rw [harith]

lemma pyReplace_single (c0 : Char) (cs new pre post : List Char)
    (hc0 : nzDigit c0 = true) (hpre : ∀ c ∈ pre, nzDigit c = false)
    (hpost : ∀ c ∈ post, nzDigit c = false) :
    pyReplace (pre ++ ((c0 :: cs) ++ post)) (c0 :: cs) new = pre ++ (new ++ post) := by
  show replaceAllGo c0 cs new (pre ++ ((c0 :: cs) ++ post)).length (pre ++ ((c0 :: cs) ++ post))
      = pre ++ (new ++ post)
  rw [replaceAllGo_pre c0 cs new pre ((c0 :: cs) ++ post) _ (le_refl _) hc0 hpre]
  congr 1
  have hrem : (pre ++ ((c0 :: cs) ++ post)).length - pre.length = cs.length + post.length + 1 := by
    simp
  rw [hrem]
  simp only [List.cons_append, replaceAllGo, List.append_eq]
  rw [if_pos (by rw [← List.cons_append]; exact isPrefixOf_append_self (c0 :: cs) post)]
  rw [List.drop_left]
  rw [replaceAllGo_none c0 cs new (cs.length + post.length) post (by omega) hc0 hpost]

/-- Claim C7, counterexample: on "1 1" with seed 1 the source's sequential
global replacement substitutes the first transform for both occurrences,
while the claim's per-match semantics transforms the second match with seed 2
— the results differ ("6 6" against "6 9"). -/
theorem transform_value_str_counterexample :
    transformValueStr "1 1" 1 ≠ claimTransformStr "1 1" 1 := by decide

/-- Claim C7 (amended): on strings containing at most one match of
[1-9][0-9]*, the source's string transform agrees exactly with the claim's
per-match replacement semantics; with two or more matches the global
`str.replace` substitution diverges from it. -/
theorem transform_value_str_single (s : String) (seed : Nat)
    (h1 : (findMatches s.data).length ≤ 1) :
    transformValueStr s seed = claimTransformStr s seed := by
  unfold transformValueStr claimTransformStr
  rcases hm : findMatches s.data with _ | ⟨m, ms⟩
  · have hno : ∀ c ∈ s.data, nzDigit c = false :=
      findMatchesGo_nil_forall s.data.length s.data (le_refl _) hm
    rw [claimGo_of_no_nz seed s.data 0 s.data.length (le_refl _) hno]
    rfl
  · rcases ms with _ | ⟨m2, ms2⟩
    · obtain ⟨pre, c0, cs, post, hl, hmEq, hpre, hc0, hcs, hpost, hhd⟩ :=
        findMatchesGo_single s.data.length s.data m (le_refl _) hm
      have hlen : s.data.length = pre.length + (cs.length + post.length + 1) := by
        rw [hl]
        simp
      -- spec side
      have hspec : claimTransformStrGo seed s.data.length s.data 0
          = (transformValueInt (digitsToNat m : Int) (seed + 0)).bind
              (fun t => some (pre ++ ((toString t).toList ++ post))) := by
        have hl2 : s.data = pre ++ ((c0 :: cs) ++ post) := by rw [hl, List.append_assoc]
        rw [hl2]
        rw [claimGo_pre seed pre ((c0 :: cs) ++ post) 0 (pre ++ ((c0 :: cs) ++ post)).length
          (le_refl _) hpre]
        have hrem : (pre ++ ((c0 :: cs) ++ post)).length - pre.length
            = (cs.length + post.length) + 1 := by simp
        rw [hrem]
        simp only [List.cons_append, claimTransformStrGo, List.append_eq, Nat.zero_add]
        rw [if_pos hc0]
        have htw := takeWhile_digits_append cs post hcs hhd
        rw [htw.1, htw.2]
        rw [claimGo_of_no_nz seed post 1 (cs.length + post.length) (by omega) hpost]
        rw [← hmEq]
        cases transformValueInt (digitsToNat m : Int) (seed + 0) <;> simp
      rw [hspec]
      -- code side
      simp only [transformValueStrGo]
      cases htI : transformValueInt (digitsToNat m : Int) (seed + 0) with
      | none => simp
      | some t =>
        have hrepl : pyReplace s.data m (toString t).toList
            = pre ++ ((toString t).toList ++ post) := by
          rw [hl, hmEq, List.append_assoc]
          exact pyReplace_single c0 cs (toString t).toList pre post hc0 hpre hpost
        simp only [Option.some_bind, transformValueStrGo]
        rw [hrepl]
    · rw [hm] at h1
      simp at h1

/-- Witness for C7's amended statement on the one-match string "a12b". -/
theorem transform_value_str_single_witness :
    (findMatches (String.data "a12b")).length ≤ 1 ∧
      transformValueStr "a12b" 0 = claimTransformStr "a12b" 0 :=
  ⟨by decide, transform_value_str_single "a12b" 0 (by decide)⟩

end Ipr

/-! ## Fictitious-entry embedding and detection (claim C8) -/

namespace Ipr

lemma filter_and {α : Type} (p q : α → Bool) (l : List α) :
    l.filter (fun a => p a && q a) = (l.filter p).filter q := by
  induction l with
  | nil => rfl
  | cons a t ih => by_cases hp : p a <;> by_cases hq : q a <;> simp [hp, hq, ih]

lemma rowExistsGo_eq (test : DF) (columns : List String)
    (pairs : List (String × Value)) (part : List (List Value)) :
    rowExistsGo test columns pairs part
      = ((part.filter (fun r => pairs.all (fun cv =>
          !columns.contains cv.1 ||
            cellEq (r.getD (colIdx test cv.1) (.vint 0)) cv.2))).length == 1) := by
  induction pairs generalizing part with
  | nil => simp [rowExistsGo]
  | cons cv rest ih =>
    obtain ⟨c, v⟩ := cv
    cases hc : columns.contains c with
    | false =>
      simp only [rowExistsGo, hc, Bool.false_eq_true, if_false, List.all_cons,
        Bool.not_false, Bool.true_or, Bool.true_and]
      exact ih part
    | true =>
      simp only [rowExistsGo, hc, if_true, List.all_cons, Bool.not_true, Bool.false_or]
      cases hz : (part.filter
          (fun r => cellEq (r.getD (colIdx test c) (.vint 0)) v)).length == 0 with
      | true =>
        have he : part.filter (fun r => cellEq (r.getD (colIdx test c) (.vint 0)) v) = [] :=
          List.length_eq_zero.mp (beq_iff_eq.mp hz)
        rw [if_pos rfl, filter_and, he]
        rfl
      | false =>
        rw [if_neg (by simp), filter_and]
        exact ih _

lemma rowExists_eq_count (test rowDf : DF) :
    rowExists test rowDf = (rowMatchCount test rowDf == 1) := by
  unfold rowExists rowMatchCount
  exact rowExistsGo_eq test (orderColumnsBySparsity test) _ test.rows

/-- Claim C8, counterexample: embedding the 108-row frame `dfRepeated` inserts
a synthesized row whose value already occurs 12 times, so the paired detection
finds 13 matches instead of exactly one and answers `false`; meanwhile the
unrelated 9-row frame `dfDistinct` happens to match the synthesized row exactly
once, so detection against it answers `true`. -/
theorem detect_fictitious_counterexample :
    (embedFictitious dfRepeated "u" "k" (fun _ => 0)).bind
        (fun out => detectFictitious dfRepeated out "u" "k") = some false ∧
      detectFictitious dfRepeated dfDistinct "u" "k" = some true := by
  constructor
  · decide
  · decide

/-- Claim C8 (amended): whenever the synthesized rows regenerate, detection
answers `true` exactly when some synthesized row matches exactly one record of
the tested frame on the columns `row_exists` filters over — embedding makes
this hold only if the inserted row collides with no pre-existing record, and
an unrelated frame is reported clean only if it contains no single accidental
match. -/
theorem detect_fictitious_iff (self test : DF) (uuid key : String)
    (rows : List (List Value)) (h : getRandomRows self uuid key = some rows) :
    (detectFictitious self test uuid key = some true
      ↔ ∃ row ∈ rows, rowMatchCount test (DF.mk self.cols [row]) = 1) := by
  unfold detectFictitious
  rw [h]
  simp only [Option.map_some', Option.some.injEq]
  rw [List.any_eq_true]
  constructor
  · rintro ⟨row, hrow, hex⟩
    refine ⟨row, hrow, ?_⟩
    rw [rowExists_eq_count] at hex
    exact beq_iff_eq.mp hex
  · rintro ⟨row, hrow, hcount⟩
    refine ⟨row, hrow, ?_⟩
    rw [rowExists_eq_count, hcount]
    rfl

/-- Witness for C8's amended statement: the synthesized row of `dfRepeated`
regenerates as `[8]`, and detection against `dfDistinct` answers `true`
precisely because that row matches exactly one record there. -/
theorem detect_fictitious_iff_witness :
    getRandomRows dfRepeated "u" "k" = some [[Value.vint 8]] ∧
      (detectFictitious dfRepeated dfDistinct "u" "k" = some true
        ↔ ∃ row ∈ [[Value.vint 8]],
            rowMatchCount dfDistinct (DF.mk dfRepeated.cols [row]) = 1) :=
  ⟨by decide, detect_fictitious_iff dfRepeated dfDistinct "u" "k" [[Value.vint 8]] (by decide)⟩

end Ipr

/-! ## Geometry embedding bookkeeping (claim C10) -/

namespace Ipr

lemma randintMany_mem (lo hi : Nat) (hne : hi - lo - 1 ≠ mask32) :
    ∀ (n : Nat) (st st' : MTState) (l : List Nat),
      randintMany st lo hi n = some (l, st') → ∀ x ∈ l, lo ≤ x ∧ x < hi
  | 0, st, st', l, h => by
    simp only [randintMany] at h
    by_cases hle : hi ≤ lo
    · rw [if_pos hle] at h
      cases h
    · rw [if_neg hle] at h
      have hl : [] = l := congrArg Prod.fst (Option.some_inj.mp h)
      intro x hx
      rw [← hl] at hx
      cases hx
  | k+1, st, st', l, h => by
    simp only [randintMany] at h
    cases hr : randint st lo hi with
    | none => rw [hr] at h; cases h
    | some p =>
      rw [hr] at h
      simp only [Option.some_bind] at h
      cases hq : randintMany p.2 lo hi k with
      | none => rw [hq] at h; cases h
      | some q =>
        rw [hq] at h
        simp only [Option.map_some'] at h
        have hl : p.1 :: q.1 = l := congrArg Prod.fst (Option.some_inj.mp h)
        intro x hx
        rw [← hl] at hx
        rcases List.mem_cons.mp hx with heq | hx'
        · rw [heq]
          exact randint_mem st p.2 lo hi p.1 hr hne
        · exact randintMany_mem lo hi hne k p.2 q.2 q.1 (by rw [hq]) x hx'

lemma flatNonzero_lt {G : Type} (isCand : G → Bool) (rows : List (GRow G)) (x : Nat)
    (hx : x ∈ flatNonzero isCand rows) : x < rows.length := by
  unfold flatNonzero at hx
  obtain ⟨a, ha, hfa⟩ := List.mem_filterMap.mp hx
  have h2 := (List.of_mem_zip ha).2
  by_cases hcand : isCand a.1.geom = true
  · rw [if_pos hcand] at hfa
    obtain rfl : a.2 = x := Option.some_inj.mp hfa
    exact List.mem_range.mp h2
  · rw [if_neg hcand] at hfa
    cases hfa

lemma flatNonzero_length_le {G : Type} (isCand : G → Bool) (rows : List (GRow G)) :
    (flatNonzero isCand rows).length ≤ rows.length := by
  unfold flatNonzero
  calc ((rows.zip (List.range rows.length)).filterMap _).length
      ≤ (rows.zip (List.range rows.length)).length := List.length_filterMap_le _ _
    _ ≤ rows.length := by simp

lemma mem_insertSorted (x y : Nat) (l : List Nat) :
    y ∈ insertSorted x l ↔ y = x ∨ y ∈ l := by
  induction l with
  | nil => simp [insertSorted]
  | cons a t ih =>
    unfold insertSorted
    by_cases h1 : x < a
    · rw [if_pos h1]
      simp [List.mem_cons]
    · rw [if_neg h1]
      by_cases h2 : x = a
      · rw [if_pos h2]
        subst h2
        simp [List.mem_cons]
      · rw [if_neg h2]
        simp [List.mem_cons, ih]
        tauto

lemma pairwise_insertSorted (x : Nat) (l : List Nat) (h : l.Pairwise (· < ·)) :
    (insertSorted x l).Pairwise (· < ·) := by
  induction l with
  | nil => simp [insertSorted]
  | cons a t ih =>
    unfold insertSorted
    rcases List.pairwise_cons.mp h with ⟨ha, ht⟩
    by_cases h1 : x < a
    · rw [if_pos h1]
      refine List.pairwise_cons.mpr ⟨?_, h⟩
      intro y hy
      rcases List.mem_cons.mp hy with rfl | hy'
      · exact h1
      · exact Nat.lt_trans h1 (ha y hy')
    · rw [if_neg h1]
      by_cases h2 : x = a
      · rw [if_pos h2]
        exact h
      · rw [if_neg h2]
        have hax : a < x := by omega
        refine List.pairwise_cons.mpr ⟨?_, ih ht⟩
        intro y hy
        rcases (mem_insertSorted x y t).mp hy with rfl | hy'
        · exact hax
        · exact ha y hy'

lemma sortedUnique_cons (a : Nat) (t : List Nat) :
    sortedUnique (a :: t) = insertSorted a (sortedUnique t) := rfl

lemma sortedUnique_pairwise (l : List Nat) : (sortedUnique l).Pairwise (· < ·) := by
  induction l with
  | nil => exact List.Pairwise.nil
  | cons a t ih => exact pairwise_insertSorted a _ ih

lemma mem_sortedUnique (l : List Nat) (y : Nat) : y ∈ sortedUnique l ↔ y ∈ l := by
  induction l with
  | nil => simp [sortedUnique]
  | cons a t ih =>
    rw [sortedUnique_cons, mem_insertSorted, ih]
    simp [List.mem_cons]

lemma pairwise_le_getLast (l : List Nat) (h : l.Pairwise (· < ·)) (hne : l ≠ []) :
    ∀ x ∈ l, x ≤ l.getLast hne := by
  induction l with
  | nil => cases hne rfl
  | cons a t ih =>
    intro x hx
    cases t with
    | nil =>
      rcases List.mem_cons.mp hx with rfl | h0
      · exact le_refl _
      · cases h0
    | cons b u =>
      rcases List.pairwise_cons.mp h with ⟨ha, ht⟩
      rw [List.getLast_cons (by simp)]
      rcases List.mem_cons.mp hx with rfl | hx'
      · exact Nat.le_of_lt (ha _ (List.getLast_mem _))
      · exact ih ht (by simp) x hx'

lemma getD_drop {α : Type} (l : List α) (d : α) (m k : Nat) (h : m + k < l.length) :
    (l.drop m).getD k d = l.getD (m + k) d := by
  induction l generalizing m with
  | nil => simp at h
  | cons a t ih =>
    cases m with
    | zero => simp
    | succ m0 =>
      rw [List.drop_succ_cons]
      rw [ih m0 (by simp at h; omega)]
      rw [show m0 + 1 + k = (m0 + k) + 1 from by omega]
      rw [List.getD_cons_succ]

lemma getD_take {α : Type} (l : List α) (d : α) (n k : Nat) (hk : k < n)
    (hl : k < l.length) :
    (l.take n).getD k d = l.getD k d := by
  induction l generalizing n k with
  | nil => simp at hl
  | cons a t ih =>
    cases n with
    | zero => omega
    | succ n0 =>
      rw [List.take_succ_cons]
      cases k with
      | zero => rfl
      | succ k0 =>
        rw [List.getD_cons_succ, List.getD_cons_succ]
        exact ih n0 k0 (by omega) (by simp at hl; omega)

lemma embedGeomsGo_spec {G : Type} [Inhabited G] (dfRows : List (GRow G))
    (tG : G → MTState → G × MTState) :
    ∀ (idxs : List Nat) (st : MTState) (offset : Nat),
      idxs.Pairwise (· < ·) →
      (∀ i ∈ idxs, offset ≤ i) →
      (∀ i ∈ idxs, i < dfRows.length) →
      (embedGeomsGo dfRows tG st offset idxs).1.length
          = (match idxs.getLast? with
             | none => 0
             | some last => last + 1 - offset) ∧
      (∀ k, k < (embedGeomsGo dfRows tG st offset idxs).1.length →
        ((embedGeomsGo dfRows tG st offset idxs).1.getD k (GRow.mk [] default)).attrs
          = (dfRows.getD (offset + k) (GRow.mk [] default)).attrs) ∧
      (∀ k, k < (embedGeomsGo dfRows tG st offset idxs).1.length →
        (offset + k) ∉ idxs →
        (embedGeomsGo dfRows tG st offset idxs).1.getD k (GRow.mk [] default)
          = dfRows.getD (offset + k) (GRow.mk [] default)) := by
  intro idxs
  induction idxs with
  | nil =>
    intro st offset _ _ _
    refine ⟨rfl, ?_, ?_⟩ <;> intro k hk <;> simp [embedGeomsGo] at hk
  | cons idx rest ih =>
    intro st offset hpw hoff hbnd
    have hoi : offset ≤ idx := hoff idx (List.mem_cons_self _ _)
    have hil : idx < dfRows.length := hbnd idx (List.mem_cons_self _ _)
    rcases List.pairwise_cons.mp hpw with ⟨hlt, hpw'⟩
    have hoff' : ∀ i ∈ rest, idx + 1 ≤ i := fun i hi => hlt i hi
    have hbnd' : ∀ i ∈ rest, i < dfRows.length := fun i hi => hbnd i (List.mem_cons_of_mem _ hi)
    obtain ⟨ihlen, ihattr, ihpres⟩ :=
      ih (tG (dfRows.getD idx (GRow.mk [] default)).geom st).2 (idx + 1) hpw' hoff' hbnd'
    have hresult : (embedGeomsGo dfRows tG st offset (idx :: rest)).1
        = (dfRows.drop offset).take (idx - offset)
          ++ GRow.mk (dfRows.getD idx (GRow.mk [] default)).attrs
              (tG (dfRows.getD idx (GRow.mk [] default)).geom st).1
            :: (embedGeomsGo dfRows tG
                (tG (dfRows.getD idx (GRow.mk [] default)).geom st).2 (idx + 1) rest).1 := rfl
    set q1 := (embedGeomsGo dfRows tG
        (tG (dfRows.getD idx (GRow.mk [] default)).geom st).2 (idx + 1) rest).1 with hq1
    set pre := (dfRows.drop offset).take (idx - offset) with hpre
    set row := GRow.mk (dfRows.getD idx (GRow.mk [] default)).attrs
        (tG (dfRows.getD idx (GRow.mk [] default)).geom st).1 with hrow
    have hprelen : pre.length = idx - offset := by
      rw [hpre, List.length_take, List.length_drop]
      omega
    have hlen1 : (pre ++ row :: q1).length = (idx - offset) + 1 + q1.length := by
      rw [List.length_append, hprelen, List.length_cons]
      omega
    have hlast : (match (idx :: rest).getLast? with
        | none => 0
        | some last => last + 1 - offset) = (idx - offset) + 1 + q1.length := by
      cases rest with
      | nil =>
        have hq0 : q1.length = 0 := by rw [ihlen]; rfl
        show idx + 1 - offset = (idx - offset) + 1 + q1.length
        omega
      | cons b u =>
        rw [List.getLast?_cons_cons]
        have hbu : (b :: u).getLast? = some ((b :: u).getLast (by simp)) :=
          List.getLast?_eq_getLast _ _
        rw [hbu]
        have hql : q1.length = (b :: u).getLast (by simp) + 1 - (idx + 1) := by
          rw [ihlen, hbu]
        have hgl : idx < (b :: u).getLast (by simp) :=
          hlt _ (List.getLast_mem _)
        show (b :: u).getLast (by simp) + 1 - offset = (idx - offset) + 1 + q1.length
        omega
    refine ⟨?_, ?_, ?_⟩
    · rw [hresult, hlen1, hlast]
    · intro k hk
      rw [hresult] at hk ⊢
      rw [hlen1] at hk
      by_cases hk1 : k < idx - offset
      · rw [List.getD_append _ _ _ _ (by rw [hprelen]; exact hk1)]
        rw [hpre, getD_take _ _ _ _ hk1 (by rw [List.length_drop]; omega),
          getD_drop _ _ _ _ (by omega)]
      · by_cases hk2 : k = idx - offset
        · rw [List.getD_append_right _ _ _ _ (by rw [hprelen]; omega)]
          have hz : k - pre.length = 0 := by rw [hprelen]; omega
          rw [hz, List.getD_cons_zero, hrow]
          have hoik : offset + k = idx := by omega
          rw [hoik]
        · have hk3 : idx - offset + 1 ≤ k := by omega
          rw [List.getD_append_right _ _ _ _ (by rw [hprelen]; omega)]
          rw [hprelen]
          rw [show k - (idx - offset) = (k - (idx - offset) - 1) + 1 from by omega]
          rw [List.getD_cons_succ]
          have hkin : k - (idx - offset) - 1 < q1.length := by omega
          rw [ihattr _ hkin]
          rw [show idx + 1 + (k - (idx - offset) - 1) = offset + k from by omega]
    · intro k hk hnotin
      rw [hresult] at hk ⊢
      rw [hlen1] at hk
      by_cases hk1 : k < idx - offset
      · rw [List.getD_append _ _ _ _ (by rw [hprelen]; exact hk1)]
        rw [hpre, getD_take _ _ _ _ hk1 (by rw [List.length_drop]; omega),
          getD_drop _ _ _ _ (by omega)]
      · by_cases hk2 : k = idx - offset
        · exfalso
          apply hnotin
          have hoik : offset + k = idx := by omega
          rw [hoik]
          exact List.mem_cons_self _ _
        · have hk3 : idx - offset + 1 ≤ k := by omega
          rw [List.getD_append_right _ _ _ _ (by rw [hprelen]; omega)]
          rw [hprelen]
          rw [show k - (idx - offset) = (k - (idx - offset) - 1) + 1 from by omega]
          rw [List.getD_cons_succ]
          have hkin : k - (idx - offset) - 1 < q1.length := by omega
          have hnotin2 : idx + 1 + (k - (idx - offset) - 1) ∉ rest := by
            intro hmem
            apply hnotin
            rw [show offset + k = idx + 1 + (k - (idx - offset) - 1) from by omega]
            exact List.mem_cons_of_mem _ hmem
          rw [ihpres _ hkin hnotin2]
          rw [show idx + 1 + (k - (idx - offset) - 1) = offset + k from by omega]

/-- Claim C10: whenever `embed_geometries` succeeds, the output frame keeps the
column list, has exactly as many rows as the input, every row keeps its
attribute cells verbatim, and every row outside the selected index set is kept
whole — only selected rows have their geometry replaced. -/
theorem embed_geometries_frame {G : Type} [Inhabited G] (isCand : G → Bool)
    (transformG : G → MTState → G × MTState) (df : GDF G) (uuid key : String) (out : GDF G)
    (hsize : df.rows.length < 2 ^ 32)
    (h : embedGeometries isCand transformG df uuid key = some out) :
    out.cols = df.cols ∧ out.rows.length = df.rows.length ∧
      (∀ j, j < df.rows.length →
        (out.rows.getD j (GRow.mk [] default)).attrs
          = (df.rows.getD j (GRow.mk [] default)).attrs) ∧
      ∃ sel : List Nat,
        (∀ j ∈ sel, j < df.rows.length) ∧
        (∀ j, j < df.rows.length → j ∉ sel →
          out.rows.getD j (GRow.mk [] default) = df.rows.getD j (GRow.mk [] default)) := by
  unfold embedGeometries at h
  cases hg : getRandomGeoms isCand df (randomState uuid key) with
  | none => rw [hg] at h; cases h
  | some p =>
    rw [hg] at h
    simp only [Option.some_bind] at h
    unfold getRandomGeoms at hg
    simp only [Option.map_eq_some'] at hg
    obtain ⟨dq, hdq, hpq⟩ := hg
    have hchosen : p.1 = sortedUnique (dq.1.map
        (fun k => (flatNonzero isCand df.rows).getD k 0)) := by
      rw [← hpq]
    have hmem : ∀ x ∈ p.1, x < df.rows.length := by
      intro x hx
      rw [hchosen, mem_sortedUnique] at hx
      obtain ⟨k, hk, rfl⟩ := List.mem_map.mp hx
      have hnemask : (flatNonzero isCand df.rows).length - 0 - 1 ≠ mask32 := by
        have := flatNonzero_length_le isCand df.rows
        unfold mask32
        omega
      have hkc : k < (flatNonzero isCand df.rows).length :=
        (randintMany_mem 0 (flatNonzero isCand df.rows).length hnemask _ _ _ _
          (by rw [hdq]) k hk).2
      refine flatNonzero_lt isCand df.rows _ ?_
      rw [getD_eq_get (flatNonzero isCand df.rows) 0 k hkc]
      exact List.get_mem _ _ _
    have hpw : p.1.Pairwise (· < ·) := by
      rw [hchosen]
      exact sortedUnique_pairwise _
    cases hp : p.1 with
    | nil => rw [hp] at h; cases h
    | cons i0 is =>
      rw [hp] at h
      obtain rfl : GDF.mk df.cols
          ((embedGeomsGo df.rows transformG p.2 0 (i0 :: is)).1 ++
            (if (i0 :: is).getLast (by simp) < df.rows.length
             then df.rows.drop ((i0 :: is).getLast (by simp) + 1) else [])) = out :=
        Option.some_inj.mp h
      rw [hp] at hmem hpw
      have hlast_mem : (i0 :: is).getLast (by simp) ∈ i0 :: is := List.getLast_mem _
      have hlast_lt : (i0 :: is).getLast (by simp) < df.rows.length := hmem _ hlast_mem
      rw [if_pos hlast_lt]
      obtain ⟨hblen, hattr, hpres⟩ :=
        embedGeomsGo_spec df.rows transformG (i0 :: is) p.2 0 hpw
          (fun i _ => Nat.zero_le i) hmem
      have hblen2 : (embedGeomsGo df.rows transformG p.2 0 (i0 :: is)).1.length
          = (i0 :: is).getLast (by simp) + 1 := by
        rw [hblen, List.getLast?_eq_getLast (i0 :: is) (by simp)]
        rfl
      have hrowlen : ((embedGeomsGo df.rows transformG p.2 0 (i0 :: is)).1 ++
          df.rows.drop ((i0 :: is).getLast (by simp) + 1)).length = df.rows.length := by
        rw [List.length_append, hblen2, List.length_drop]
        omega
      refine ⟨rfl, hrowlen, ?_, ⟨i0 :: is, hmem, ?_⟩⟩
      · intro j hj
        by_cases hjb : j < (i0 :: is).getLast (by simp) + 1
        · rw [List.getD_append _ _ _ _ (by rw [hblen2]; exact hjb)]
          have := hattr j (by rw [hblen2]; exact hjb)
          rw [Nat.zero_add] at this
          exact this
        · rw [List.getD_append_right _ _ _ _ (by rw [hblen2]; omega), hblen2]
          rw [getD_drop _ _ _ _ (by omega)]
          rw [show (i0 :: is).getLast (by simp) + 1
            + (j - ((i0 :: is).getLast (by simp) + 1)) = j from by omega]
      · intro j hj hnotin
        by_cases hjb : j < (i0 :: is).getLast (by simp) + 1
        · rw [List.getD_append _ _ _ _ (by rw [hblen2]; exact hjb)]
          have := hpres j (by rw [hblen2]; exact hjb) (by rw [Nat.zero_add]; exact hnotin)
          rw [Nat.zero_add] at this
          exact this
        · rw [List.getD_append_right _ _ _ _ (by rw [hblen2]; omega), hblen2]
          rw [getD_drop _ _ _ _ (by omega)]
          rw [show (i0 :: is).getLast (by simp) + 1
            + (j - ((i0 :: is).getLast (by simp) + 1)) = j from by omega]

/-- Witness for C10 on a two-row frame of `Nat` geometries: both rows are
selected, the geometries shift by the transform, and the attribute cells and
row count survive unchanged. -/
theorem embed_geometries_frame_witness :
    gdfTwo.rows.length < 2 ^ 32 ∧
      embedGeometries (fun _ : Nat => true) (fun g st => (g + 100, st)) gdfTwo "u" "k"
        = some gdfTwoOut ∧
      (gdfTwoOut.cols = gdfTwo.cols ∧ gdfTwoOut.rows.length = gdfTwo.rows.length ∧
        (∀ j, j < gdfTwo.rows.length →
          (gdfTwoOut.rows.getD j (GRow.mk [] default)).attrs
            = (gdfTwo.rows.getD j (GRow.mk [] default)).attrs) ∧
        ∃ sel : List Nat,
          (∀ j ∈ sel, j < gdfTwo.rows.length) ∧
          (∀ j, j < gdfTwo.rows.length → j ∉ sel →
            gdfTwoOut.rows.getD j (GRow.mk [] default)
              = gdfTwo.rows.getD j (GRow.mk [] default))) :=
  ⟨by decide, by decide,
    embed_geometries_frame (fun _ : Nat => true) (fun g st => (g + 100, st)) gdfTwo "u" "k"
      gdfTwoOut (by decide) (by decide)⟩

end Ipr
